import Mathlib

/-!
# ufo: compile-time string formatting (`ufo.h`)

A shallow embedding of the header `ufo.h` and a verification of its specification.

Modelling conventions.

* A C++ `char` is a Lean `Char`; the terminator `'\0'` is `Char.ofNat 0`.
* A `StaticString<N>` is the list of its `N` characters (`chars_`); the template
  parameter `N` is the length of that list (`len`).
* A `std::string_view` is a `List Char`.  A pointer `p` into a view is represented by the
  suffix of the view that starts at `p` together with the index `p` itself, so
  `p == fs.end()` is "the suffix is empty" and `*p` is the head of the suffix.
* `size_t` is `Nat` with explicit reduction modulo `2 ^ 64` where the arithmetic can wrap
  (`to_unsigned`).  The loop counter `int idx` of `applyFormat` is a `Nat`: it only counts
  up to the capacity of the result.
* An evaluation that has no defined result (a failing `static_assert`, a read or write
  outside an array, a view built from an array without terminator) is `none`.
-/

namespace ufo

/-! ## Characters and `to_unsigned` -/

/-- The function `min`: `a < b ? a : b`. -/
def min (a b : Nat) : Nat := if a < b then a else b

/-- The function `max`: `a > b ? a : b`. -/
def max (a b : Nat) : Nat := if a > b then a else b

/-- The terminator `'\0'`. -/
def NUL : Char := Char.ofNat 0

/-- The modulus of `size_t` arithmetic. -/
def SIZE_MOD : Nat := 2 ^ 64

/-- The test `'0' <= c && c <= '9'` used by the parsers. -/
def isDigit (c : Char) : Bool := decide ('0' ≤ c) && decide (c ≤ '9')

/-- The body of the loop of `to_unsigned`, run over the characters from the last to the
first: `digit = c - '0'` (an `int`), `total += digit * power; power *= 10` (in `size_t`). -/
def to_unsigned_loop : List Char → Nat → Nat → Nat
  | [], total, _ => total
  | c :: cs, total, power =>
    let digit : Int := (c.toNat : Int) - 48
    to_unsigned_loop cs
      ((total + Int.toNat ((digit * (power : Int)) % (SIZE_MOD : Int))) % SIZE_MOD)
      ((power * 10) % SIZE_MOD)

/-- The function `to_unsigned(std::string_view)`: the loop visits `minLen[N-2]`, ...,
`minLen[0]`, that is the characters from right to left. -/
def to_unsigned (minLen : List Char) : Nat :=
  to_unsigned_loop minLen.reverse 0 1

/-! ## `StaticString` -/

/-- The class `StaticString<N>`: the array `chars_`; `N` is its length. -/
structure StaticString where
  chars_ : List Char
  deriving DecidableEq, Repr

/-- The member `len()`: the capacity `N`, terminator included. -/
def StaticString.len (s : StaticString) : Nat := s.chars_.length

/-- A value-initialised `StaticString<M> result = {}`; `static_assert(N > 0)` rejects
`M = 0`. -/
def StaticString.zeroed (M : Nat) : Option (List Char) :=
  if 0 < M then some (List.replicate M NUL) else none

/-- A loop `for (...; target++, idx++) *target = src[idx]` making `count` iterations from
`idx`, writing at `target`; it returns the buffer and the final `target`. -/
def copyLoop (src : List Char) : Nat → Nat → List Char → Nat → Option (List Char × Nat)
  | 0, _, buf, target => some (buf, target)
  | count + 1, idx, buf, target =>
    match src[idx]? with
    | none => none
    | some c =>
      if target < buf.length then copyLoop src count (idx + 1) (buf.set target c) (target + 1)
      else none

/-- A loop `for (...; idx++, target++) *target = c` making `count` iterations. -/
def fillLoop (c : Char) : Nat → List Char → Nat → Option (List Char × Nat)
  | 0, buf, target => some (buf, target)
  | count + 1, buf, target =>
    if target < buf.length then fillLoop c count (buf.set target c) (target + 1) else none

/-- The assignment `result.chars_[i] = '\0'`. -/
def setNUL (buf : List Char) (i : Nat) : Option (List Char) :=
  if i < buf.length then some (buf.set i NUL) else none

/-- The member `splice_at<DeleteCount, Len>(starting_idx, other)` of a `StaticString<N>`;
`Len` is the length of `other`.  The capacity `N + Len - DeleteCount - 1` of the result is
a `size_t` expression; when it wraps there is no result. -/
def StaticString.splice_at (self : StaticString) (DeleteCount : Nat) (starting_idx : Nat)
    (other : List Char) : Option StaticString :=
  let N := self.len
  let Len := other.length
  if N + Len < DeleteCount + 1 then none
  else
    match StaticString.zeroed (N + Len - DeleteCount - 1) with
    | none => none
    | some result =>
      match copyLoop self.chars_ starting_idx 0 result 0 with
      | none => none
      | some (r1, t1) =>
        match copyLoop other (Len - 1) 0 r1 t1 with
        | none => none
        | some (r2, t2) =>
          match copyLoop self.chars_ (N - (starting_idx + DeleteCount))
              (starting_idx + DeleteCount) r2 t2 with
          | none => none
          | some (r3, _) =>
            match setNUL r3 (N + Len - DeleteCount - 2) with
            | none => none
            | some r4 => some ⟨r4⟩

/-- The member `operator+(const char (&rhs)[Len])`. -/
def StaticString.append (self : StaticString) (rhs : List Char) : Option StaticString :=
  self.splice_at 0 (self.len - 1) rhs

/-- The constructor `StaticString(const char (&chars)[N])`:
`*this = StaticString<1>{} + chars`. -/
def StaticString.ofChars (chars : List Char) : Option StaticString :=
  StaticString.append ⟨[NUL]⟩ chars

/-- The fixed string that a string literal denotes: its characters and the terminator. -/
def lit (s : String) : StaticString := ⟨s.toList ++ [NUL]⟩

/-! ## The placeholder parser `FormatSpec` -/

/-- The class `FormatSpec`: the fields that the constructor fills in. -/
structure FormatSpec where
  numErrors : Nat
  width : Nat
  alignSide : Char
  fillChar : Char
  specBegin : Nat
  specLength : Nat
  deriving DecidableEq, Repr

/-- The state in which the constructor leaves the loop after it has seen the `{` at index
`specBegin` (`specLength++` was executed once) with the pointer at index `p`; the final
statement is `specLength += std::distance(fs.begin(), p) - specBegin`. -/
def FormatSpec.leave (numErrors width : Nat) (alignSide fillChar : Char)
    (specBegin p : Nat) : FormatSpec :=
  ⟨numErrors, width, alignSide, fillChar, specBegin, 1 + (p - specBegin)⟩

/-- The loop `for (; p != fs.end() && '0' <= *p && *p <= '9'; p++)`: from the suffix at
`p` it returns the characters passed over (the view `[width_begin, p)`) and the suffix at
the final `p`. -/
def digitLoop : List Char → List Char × List Char
  | [] => ([], [])
  | c :: cs =>
    if isDigit c then (c :: (digitLoop cs).1, (digitLoop cs).2)
    else ([], c :: cs)

/-- The width part of the constructor (source lines 282-295), entered with `alignSide` and
`fillChar` set and the pointer at index `p`, where the suffix `c :: rest` starts. -/
def FormatSpec.widthField (specBegin : Nat) (alignSide fillChar : Char) (p : Nat)
    (c : Char) (rest : List Char) : FormatSpec :=
  if ¬ isDigit c then FormatSpec.leave 1 0 alignSide fillChar specBegin p
  else
    let digits := (digitLoop (c :: rest)).1
    let p1 := p + digits.length
    match (digitLoop (c :: rest)).2 with
    | [] => FormatSpec.leave 1 0 alignSide fillChar specBegin p1
    | c1 :: _ =>
      if c1 ≠ '}' then FormatSpec.leave 1 0 alignSide fillChar specBegin p1
      else FormatSpec.leave 0 (to_unsigned digits) alignSide fillChar specBegin p1

/-- The body of the loop of the constructor once `*p == '{'` was found at index `specBegin`
(source lines 246-300); `rest` is the suffix after the `{`.  Every path ends in `break`. -/
def FormatSpec.afterBrace (specBegin : Nat) (rest : List Char) : FormatSpec :=
  match rest with
  | [] => FormatSpec.leave 1 0 '<' ' ' specBegin (specBegin + 1)
  | c1 :: r1 =>
    if c1 = '}' then FormatSpec.leave 0 0 '<' ' ' specBegin (specBegin + 1)
    else if c1 = ':' then
      match r1 with
      | [] => FormatSpec.leave 1 0 '<' ' ' specBegin (specBegin + 2)
      | c2 :: r2 =>
        if c2 = '<' ∨ c2 = '>' then
          match r2 with
          | [] => FormatSpec.leave 1 0 c2 ' ' specBegin (specBegin + 3)
          | c3 :: r3 => FormatSpec.widthField specBegin c2 ' ' (specBegin + 3) c3 r3
        else
          match r2 with
          | [] => FormatSpec.leave 1 0 '<' c2 specBegin (specBegin + 3)
          | c3 :: r3 =>
            if c3 = '<' ∨ c3 = '>' then
              match r3 with
              | [] => FormatSpec.leave 1 0 c3 c2 specBegin (specBegin + 4)
              | c4 :: r4 => FormatSpec.widthField specBegin c3 c2 (specBegin + 4) c4 r4
            else FormatSpec.widthField specBegin '<' c2 (specBegin + 3) c3 r3
    else FormatSpec.leave 1 0 '<' ' ' specBegin (specBegin + 1)

/-- The scanning loop `for (; p != fs.end(); p++) { if (*p != '{') continue; ... }` with the
pointer at index `p`; `len` is `fs.length()`.  When the loop runs to the end no field has
changed: `specBegin == fs.length()` and `specLength == 0 + (len - len)`. -/
def FormatSpec.scan (len : Nat) : Nat → List Char → FormatSpec
  | p, [] => ⟨0, 0, '<', ' ', len, 0 + (p - len)⟩
  | p, c :: rest =>
    if c ≠ '{' then FormatSpec.scan len (p + 1) rest
    else FormatSpec.afterBrace p rest

/-- The constructor `FormatSpec(std::string_view fs)`. -/
def FormatSpec.ctor (fs : List Char) : FormatSpec :=
  FormatSpec.scan fs.length 0 fs

/-! ## `applyFormat` and `format` -/

/-- The function template `applyFormat<formatSpec, value>()`.  For `>` the first loop makes
`Len - value.len()` iterations and the second copies all `value.len()` characters; otherwise
the first loop copies while `idx + 1 < value.len()` and the second, which goes on from that
`idx`, fills while `idx + 1 < Len`. -/
def applyFormat (formatSpec : FormatSpec) (value : StaticString) : Option StaticString :=
  let Len := max formatSpec.width value.len
  match StaticString.zeroed Len with
  | none => none
  | some result =>
    let filled : Option (List Char × Nat) :=
      if formatSpec.alignSide = '>' then
        match fillLoop formatSpec.fillChar (Len - value.len) result 0 with
        | none => none
        | some (r1, t1) => copyLoop value.chars_ value.len 0 r1 t1
      else
        match copyLoop value.chars_ (value.len - 1) 0 result 0 with
        | none => none
        | some (r1, t1) => fillLoop formatSpec.fillChar (Len - 1 - (value.len - 1)) r1 t1
    match filled with
    | none => none
    | some (r2, _) =>
      match setNUL r2 (Len - 1) with
      | none => none
      | some r3 => some ⟨r3⟩

/-- The conversion of `fmt.chars()`, a `const char (&)[N]`, to `std::string_view`: the
characters before the first terminator.  Without a terminator in the array there is no
defined view. -/
def string_view (chars : List Char) : Option (List Char) :=
  if NUL ∈ chars then some (chars.takeWhile (fun c => c ≠ NUL)) else none

/-- The function templates `format<fmt>()` and `format<fmt, value, values...>()`; the two
`static_assert`s end the evaluation without a result. -/
def format (fmt : StaticString) : List StaticString → Option StaticString
  | [] => some fmt
  | value :: values =>
    match string_view fmt.chars_ with
    | none => none
    | some fs =>
      let formatSpec := FormatSpec.ctor fs
      if formatSpec.numErrors ≠ 0 then none
      else if ¬ (0 < formatSpec.specLength) then none
      else
        match applyFormat formatSpec value with
        | none => none
        | some rendered =>
          match fmt.splice_at formatSpec.specLength formatSpec.specBegin rendered.chars_ with
          | none => none
          | some formatted => format formatted values

/-! ## Notions of the specification -/

/-- The number of fill characters that `applyFormat` writes: `Len - value.len()`. -/
def padCount (formatSpec : FormatSpec) (value : StaticString) : Nat :=
  max formatSpec.width value.len - value.len

/-- The decimal value of a digit string, read from left to right. -/
def decimalValue (ds : List Char) : Nat :=
  ds.foldl (fun acc c => acc * 10 + (c.toNat - 48)) 0

/-- The visible content of a fixed string: its characters without the last one. -/
def StaticString.visible (s : StaticString) : List Char := s.chars_.dropLast

/-- A fixed string is well formed when its last character is the terminator. -/
def StaticString.WellFormed (s : StaticString) : Prop :=
  ∃ body : List Char, s.chars_ = body ++ [NUL]

/-- The rendering of a value under a parsed placeholder, as visible text: the padding goes
on the left for `>` and on the right otherwise. -/
def render (sp : FormatSpec) (v : StaticString) : List Char :=
  if sp.alignSide = '>' then List.replicate (padCount sp v) sp.fillChar ++ v.visible
  else v.visible ++ List.replicate (padCount sp v) sp.fillChar

/-- One-pass positional substitution: with no value left the text is returned; otherwise
the first placeholder of the text is replaced by the rendering of the first value and the
substitution goes on in the text after that placeholder only.  There is no result when the
text has no placeholder or a malformed one. -/
def substitute : List Char → List StaticString → Option (List Char)
  | T, [] => some T
  | T, v :: vs =>
    let sp := FormatSpec.ctor T
    if sp.numErrors ≠ 0 ∨ sp.specLength = 0 then none
    else
      match substitute (T.drop (sp.specBegin + sp.specLength)) vs with
      | none => none
      | some out => some (T.take sp.specBegin ++ render sp v ++ out)

/-- No text rendered during the one-pass substitution contains the character `{`. -/
def cleanRun : List Char → List StaticString → Bool
  | _, [] => true
  | T, v :: vs =>
    let sp := FormatSpec.ctor T
    if sp.numErrors ≠ 0 ∨ sp.specLength = 0 then true
    else !(decide ('{' ∈ render sp v))
      && cleanRun (T.drop (sp.specBegin + sp.specLength)) vs

/-- The number of placeholders of a text that a left-to-right pass can consume: it stops at
the end of the text, at a malformed placeholder, or when `fuel` placeholders were counted. -/
def countPlaceholders : Nat → List Char → Nat
  | 0, _ => 0
  | fuel + 1, T =>
    let sp := FormatSpec.ctor T
    if sp.numErrors ≠ 0 ∨ sp.specLength = 0 then 0
    else 1 + countPlaceholders fuel (T.drop (sp.specBegin + sp.specLength))

/-- The number of placeholders of a text in left-to-right order; every placeholder has at
least two characters, so the length of the text is enough fuel. -/
def placeholderCount (T : List Char) : Nat := countPlaceholders T.length T

/-- The text between `:` and the width: an alignment token, a fill character and an
alignment token, or a fill character alone.  The flag tells whether it ends in an alignment
token. -/
inductive Lead : Bool → List Char → Prop where
  | align (a : Char) : (a = '<' ∨ a = '>') → Lead true [a]
  | fillAlign (F a : Char) : ¬ (F = '<' ∨ F = '>') → (a = '<' ∨ a = '>') → Lead true [F, a]
  | fill (F : Char) : ¬ (F = '<' ∨ F = '>') → Lead false [F]

/-- The failure conditions of the parser, as conditions on the text after the first `{`. -/
inductive Malformed : List Char → Prop where
  /-- the template ends right after `{` -/
  | endAfterBrace : Malformed []
  /-- the character after `{` is neither `}` nor `:` -/
  | badFirst (c : Char) (r : List Char) : c ≠ '}' → c ≠ ':' → Malformed (c :: r)
  /-- the template ends right after `:` -/
  | endAfterColon : Malformed [':']
  /-- the template ends right after the alignment token, or right after the fill
  character -/
  | endAfterLead (b : Bool) (lead : List Char) : Lead b lead → Malformed (':' :: lead)
  /-- the character where the width must start is not a decimal digit -/
  | widthStart (b : Bool) (lead : List Char) (c : Char) (r : List Char) : Lead b lead →
      isDigit c = false → (b = false → ¬ (c = '<' ∨ c = '>')) →
      Malformed (':' :: (lead ++ c :: r))
  /-- the template ends right after the digit run -/
  | digitsThenEnd (b : Bool) (lead W : List Char) : Lead b lead → W ≠ [] →
      (∀ d ∈ W, isDigit d = true) → Malformed (':' :: (lead ++ W))
  /-- the character following the digit run is not `}` -/
  | digitsThenOther (b : Bool) (lead W : List Char) (c : Char) (r : List Char) :
      Lead b lead → W ≠ [] → (∀ d ∈ W, isDigit d = true) → isDigit c = false → c ≠ '}' →
      Malformed (':' :: (lead ++ W ++ c :: r))

/-- A parse result moved to another `specBegin`. -/
def FormatSpec.withBegin (sp : FormatSpec) (b : Nat) : FormatSpec :=
  ⟨sp.numErrors, sp.width, sp.alignSide, sp.fillChar, b, sp.specLength⟩

/-- The placeholder texts of the grammar of the specification: `{}` and
`{:` fill? align digits `}`. -/
inductive Placeholder where
  | plain : Placeholder
  | aligned (fill : Option Char) (align : Char) (W : List Char) : Placeholder
  deriving DecidableEq, Repr

/-- The characters of a placeholder, both braces included. -/
def Placeholder.text : Placeholder → List Char
  | .plain => ['{', '}']
  | .aligned fill align W => ['{', ':'] ++ fill.toList ++ [align] ++ W ++ ['}']

/-- The side conditions of the grammar: the alignment token is `<` or `>`, the fill
character is neither, and the width is one or more decimal digits. -/
def Placeholder.Valid : Placeholder → Prop
  | .plain => True
  | .aligned fill align W =>
    (align = '<' ∨ align = '>') ∧ (∀ F, fill = some F → F ≠ '<' ∧ F ≠ '>') ∧
      W ≠ [] ∧ ∀ c ∈ W, isDigit c = true

/-- The alignment side a placeholder denotes (`<` when none is written). -/
def Placeholder.alignSide : Placeholder → Char
  | .plain => '<'
  | .aligned _ align _ => align

/-- The fill character a placeholder denotes (a space when none is written). -/
def Placeholder.fillChar : Placeholder → Char
  | .plain => ' '
  | .aligned fill _ _ => fill.getD ' '

/-- The width a placeholder denotes (0 for `{}`). -/
def Placeholder.width : Placeholder → Nat
  | .plain => 0
  | .aligned _ _ W => decimalValue W

/-! ## Concatenation: `operator+`, `cat` and `join` -/

/-- The member `operator+(const StaticString<Len>& rhs)`: `*this + rhs.chars_`. -/
def StaticString.add (self rhs : StaticString) : Option StaticString :=
  self.append rhs.chars_

/-- The functions `cat()` and `cat(args...)`: the fold `(cat() + ... + args)`, a left fold
of `operator+` from `StaticString<1>{}`.  An argument is given by its array of characters,
which is what both overloads of `operator+` read. -/
def cat (args : List StaticString) : Option StaticString :=
  args.foldl (fun acc arg => acc.bind fun s => s.add arg) (some ⟨[NUL]⟩)

/-- The function `join(separator, str, strs...)`: the fold
`(cat(str) + ... + cat(separator, strs))`. -/
def join (separator str : StaticString) (strs : List StaticString) : Option StaticString :=
  strs.foldl
    (fun acc s => acc.bind fun a => (cat [separator, s]).bind fun b => a.add b)
    (cat [str])

/-! ## The placeholder parser `FormatSpecU` -/

/-- The class `FormatSpecU`: the fields that the constructor fills in. -/
structure FormatSpecU where
  numErrors : Nat
  specBegin : Nat
  specLength : Nat
  fillCount : Nat
  fillSeqBegin : Nat
  fillSeqEnd : Nat
  alignSide : Char
  deriving DecidableEq, Repr

/-- The state in which the constructor of `FormatSpecU` leaves the loop after it has seen
the `{` at index `specBegin` with the pointer at index `p`. -/
def FormatSpecU.leave (numErrors fillCount fillSeqBegin fillSeqEnd : Nat) (alignSide : Char)
    (specBegin p : Nat) : FormatSpecU :=
  ⟨numErrors, specBegin, 1 + (p - specBegin), fillCount, fillSeqBegin, fillSeqEnd, alignSide⟩

/-- The loop `for (p++; p != fs.end(); p++, fillSeqEnd++)` that stops at the first `<` or
`>`: from the suffix at `p` (after the `p++`) it returns the characters passed over and
the suffix at the final `p`. -/
def fillScan : List Char → List Char × List Char
  | [] => ([], [])
  | c :: cs =>
    if c = '<' ∨ c = '>' then ([], c :: cs)
    else (c :: (fillScan cs).1, (fillScan cs).2)

/-- The width part of the constructor of `FormatSpecU` (source lines 196-209), entered with
the pointer at index `p`, where the suffix `c :: rest` starts. -/
def FormatSpecU.widthField (specBegin fillSeqBegin fillSeqEnd : Nat) (alignSide : Char)
    (p : Nat) (c : Char) (rest : List Char) : FormatSpecU :=
  if ¬ isDigit c then FormatSpecU.leave 1 0 fillSeqBegin fillSeqEnd alignSide specBegin p
  else
    let digits := (digitLoop (c :: rest)).1
    let p1 := p + digits.length
    match (digitLoop (c :: rest)).2 with
    | [] => FormatSpecU.leave 1 0 fillSeqBegin fillSeqEnd alignSide specBegin p1
    | c1 :: _ =>
      if c1 ≠ '}' then FormatSpecU.leave 1 0 fillSeqBegin fillSeqEnd alignSide specBegin p1
      else
        FormatSpecU.leave 0 (to_unsigned digits) fillSeqBegin fillSeqEnd alignSide specBegin p1

/-- The body of the loop of the constructor of `FormatSpecU` once `*p == '{'` was found at
index `specBegin` (source lines 156-214); `rest` is the suffix after the `{`. -/
def FormatSpecU.afterBrace (specBegin : Nat) (rest : List Char) : FormatSpecU :=
  match rest with
  | [] => FormatSpecU.leave 1 0 0 0 '<' specBegin (specBegin + 1)
  | c1 :: r1 =>
    if c1 = '}' then FormatSpecU.leave 0 0 0 0 '<' specBegin (specBegin + 1)
    else if c1 = ':' then
      match r1 with
      | [] => FormatSpecU.leave 1 0 0 0 '<' specBegin (specBegin + 2)
      | c2 :: r2 =>
        if c2 = '<' ∨ c2 = '>' then
          match r2 with
          | [] =>
            FormatSpecU.leave 1 0 (specBegin + 2) (specBegin + 2) c2 specBegin (specBegin + 3)
          | c3 :: r3 =>
            FormatSpecU.widthField specBegin (specBegin + 2) (specBegin + 2) c2
              (specBegin + 3) c3 r3
        else
          let passed := (fillScan r2).1
          let fillSeqEnd := specBegin + 2 + 1 + passed.length
          let p := specBegin + 3 + passed.length
          match (fillScan r2).2 with
          | [] => FormatSpecU.leave 1 0 (specBegin + 2) fillSeqEnd '<' specBegin p
          | a :: r3 =>
            match r3 with
            | [] => FormatSpecU.leave 1 0 (specBegin + 2) fillSeqEnd a specBegin (p + 1)
            | c3 :: r4 =>
              FormatSpecU.widthField specBegin (specBegin + 2) fillSeqEnd a (p + 1) c3 r4
    else FormatSpecU.leave 1 0 0 0 '<' specBegin (specBegin + 1)

/-- The scanning loop of the constructor of `FormatSpecU`, with the pointer at index `p`;
`len` is `fs.length()`. -/
def FormatSpecU.scan (len : Nat) : Nat → List Char → FormatSpecU
  | p, [] => ⟨0, len, 0 + (p - len), 0, 0, 0, '<'⟩
  | p, c :: rest =>
    if c ≠ '{' then FormatSpecU.scan len (p + 1) rest
    else FormatSpecU.afterBrace p rest

/-- The constructor `FormatSpecU(std::string_view fs)`. -/
def FormatSpecU.ctor (fs : List Char) : FormatSpecU :=
  FormatSpecU.scan fs.length 0 fs

/-! ## Further notions of the specification -/

/-- The number that a digit string `d1 ... dk` denotes: the sum of `d_i * 10 ^ (k - i)`. -/
def digitSum : List Char → Nat
  | [] => 0
  | c :: cs => (c.toNat - 48) * 10 ^ cs.length + digitSum cs

/-- The text that the parser of `format` sees of a template text followed by the
terminator: the characters before the first `'\0'`. -/
def viewOf (T : List Char) : List Char := T.takeWhile (fun c => c ≠ NUL)

/-- The one-pass reference `subst`: with no values it is the text; otherwise it parses the
first placeholder of the text, `T = P ++ placeholder ++ S`, fails if there is none or it is
malformed, and yields `P ++ applyFormat(spec, v1) ++ subst(S, [v2..vn])`.  The parser is
given the text `T` itself, whole, and the text that was substituted is not parsed again. -/
def subst : List Char → List StaticString → Option (List Char)
  | T, [] => some T
  | T, v :: vs =>
    let sp := FormatSpec.ctor T
    if sp.numErrors ≠ 0 ∨ sp.specLength = 0 then none
    else
      match applyFormat sp v with
      | none => none
      | some r =>
        match subst (T.drop (sp.specBegin + sp.specLength)) vs with
        | none => none
        | some out => some (T.take sp.specBegin ++ r.visible ++ out)

/-- No text rendered by `subst`, the `applyFormat(spec_k, v_k)` of its run over the whole
text, contains the character `c`. -/
def renderedFree (c : Char) : List Char → List StaticString → Bool
  | _, [] => true
  | T, v :: vs =>
    let sp := FormatSpec.ctor T
    if sp.numErrors ≠ 0 ∨ sp.specLength = 0 then true
    else
      match applyFormat sp v with
      | none => true
      | some r =>
        !(decide (c ∈ r.visible))
          && renderedFree c (T.drop (sp.specBegin + sp.specLength)) vs

/-- The visible contents of fixed strings one after the other, in order. -/
def concatVisible : List StaticString → List Char
  | [] => []
  | x :: xs => x.visible ++ concatVisible xs

/-- The text `i1 ++ sep ++ i2 ++ sep ++ ... ++ in` of the items `i1 :: rest`: the separator
stands between adjacent items only. -/
def joinText (sep : StaticString) : StaticString → List StaticString → List Char
  | i, [] => i.visible
  | i, j :: rest => i.visible ++ sep.visible ++ joinText sep j rest

/-- The arguments that `join` concatenates after the first item: the separator before each
further item. -/
def interleave (sep : StaticString) : List StaticString → List StaticString
  | [] => []
  | s :: ss => sep :: s :: interleave sep ss

/-! ## `max` -/

theorem max_spec (a b : Nat) : (a ≤ b ∧ max a b = b) ∨ (b < a ∧ max a b = a) := by
  unfold max
  by_cases h : a > b
  · right; exact ⟨h, if_pos h⟩
  · left; exact ⟨Nat.le_of_not_gt h, if_neg h⟩

/-! ## `to_unsigned` on digit strings -/

theorem isDigit_bounds {c : Char} (h : isDigit c = true) : 48 ≤ c.toNat ∧ c.toNat ≤ 57 := by
  simp only [isDigit, Bool.and_eq_true, decide_eq_true_eq] at h
  obtain ⟨h1, h2⟩ := h
  have h1' : ('0' : Char).toNat ≤ c.toNat := h1
  have h2' : c.toNat ≤ ('9' : Char).toNat := h2
  exact ⟨h1', h2'⟩

/-- The value accumulated by `to_unsigned_loop` over digits. -/
theorem to_unsigned_loop_digits (cs : List Char) :
    ∀ (total power : Nat), (∀ c ∈ cs, isDigit c = true) → total < SIZE_MOD →
      to_unsigned_loop cs total power
        = (total + power * cs.foldr (fun c acc => (c.toNat - 48) + 10 * acc) 0)
            % SIZE_MOD := by
  induction cs with
  | nil =>
    intro total power _ ht
    simp [to_unsigned_loop, Nat.mod_eq_of_lt ht]
  | cons c cs ih =>
    intro total power hd _
    have hc := isDigit_bounds (hd c (List.mem_cons_self _ _))
    have hM : 0 < SIZE_MOD := by decide
    have hdig : ((c.toNat : Int) - 48) * (power : Int)
        = (((c.toNat - 48) * power : Nat) : Int) := by
      push_cast
      rw [Nat.cast_sub hc.1]
      rfl
    have htn : Int.toNat ((((c.toNat : Int) - 48) * (power : Int)) % (SIZE_MOD : Int))
        = ((c.toNat - 48) * power) % SIZE_MOD := by
      rw [hdig, ← Int.natCast_mod]
      exact Int.toNat_natCast _
    simp only [to_unsigned_loop, htn, List.foldr_cons]
    rw [ih _ _ (fun x hx => hd x (List.mem_cons_of_mem _ hx)) (Nat.mod_lt _ hM)]
    generalize cs.foldr (fun c acc => (c.toNat - 48) + 10 * acc) 0 = r
    generalize c.toNat - 48 = d
    have e : total + power * (d + 10 * r) = (total + d * power) + (power * 10) * r := by ring
    rw [e]
    simp only [Nat.add_mod, Nat.mul_mod, Nat.mod_mod]

/-- On a digit string `to_unsigned` is the decimal value reduced modulo `2 ^ 64`. -/
theorem to_unsigned_digits (ds : List Char) (hd : ∀ c ∈ ds, isDigit c = true) :
    to_unsigned ds = decimalValue ds % SIZE_MOD := by
  unfold to_unsigned decimalValue
  rw [to_unsigned_loop_digits ds.reverse 0 1 (by simpa using hd) (by decide)]
  rw [List.foldr_reverse]
  simp [Nat.add_comm, Nat.mul_comm]

/-! ## The copy and fill loops -/

theorem set_length_append (pre : List Char) (m c : Char) (tl : List Char) :
    (pre ++ m :: tl).set pre.length c = pre ++ c :: tl := by
  induction pre with
  | nil => rfl
  | cons a pre ih => simp [List.set, ih]

/-- A copy loop over a window `mid` of the buffer replaces the window by the characters
read. -/
theorem copyLoop_window (src : List Char) (n : Nat) :
    ∀ (idx : Nat) (pre mid post : List Char), idx + n ≤ src.length → mid.length = n →
      copyLoop src n idx (pre ++ mid ++ post) pre.length
        = some (pre ++ (src.drop idx).take n ++ post, pre.length + n) := by
  induction n with
  | zero =>
    intro idx pre mid post _ hmid
    have : mid = [] := List.length_eq_zero.mp hmid
    subst this
    simp [copyLoop]
  | succ n ih =>
    intro idx pre mid post hsrc hmid
    obtain ⟨m, mid1, rfl⟩ : ∃ m mid1, mid = m :: mid1 := by
      cases mid with
      | nil => simp at hmid
      | cons m mid1 => exact ⟨m, mid1, rfl⟩
    have hidx : idx < src.length := by omega
    have hlen : mid1.length = n := by simpa using hmid
    have hset : (pre ++ m :: mid1 ++ post).set pre.length src[idx]
        = (pre ++ [src[idx]]) ++ mid1 ++ post := by
      simp
    have hdrop : (src.drop idx).take (n + 1) = src[idx] :: (src.drop (idx + 1)).take n := by
      rw [List.drop_eq_getElem_cons hidx]; rfl
    have hstep := ih (idx + 1) (pre ++ [src[idx]]) mid1 post (by omega) hlen
    simp only [copyLoop, List.getElem?_eq_getElem hidx]
    have htl : pre.length < (pre ++ m :: mid1 ++ post).length := by simp
    rw [if_pos htl, hset, hdrop]
    have hl : (pre ++ [src[idx]]).length = pre.length + 1 := by simp
    rw [hl] at hstep
    rw [hstep]
    simp [Nat.add_assoc, Nat.add_comm 1 n]

/-- A fill loop over a window `mid` of the buffer replaces the window by copies of the fill
character. -/
theorem fillLoop_window (c : Char) (n : Nat) :
    ∀ (pre mid post : List Char), mid.length = n →
      fillLoop c n (pre ++ mid ++ post) pre.length
        = some (pre ++ List.replicate n c ++ post, pre.length + n) := by
  induction n with
  | zero =>
    intro pre mid post hmid
    have : mid = [] := List.length_eq_zero.mp hmid
    subst this
    simp [fillLoop]
  | succ n ih =>
    intro pre mid post hmid
    obtain ⟨m, mid1, rfl⟩ : ∃ m mid1, mid = m :: mid1 := by
      cases mid with
      | nil => simp at hmid
      | cons m mid1 => exact ⟨m, mid1, rfl⟩
    have hlen : mid1.length = n := by simpa using hmid
    have hset : (pre ++ m :: mid1 ++ post).set pre.length c
        = (pre ++ [c]) ++ mid1 ++ post := by
      simp
    have hstep := ih (pre ++ [c]) mid1 post hlen
    simp only [fillLoop]
    have htl : pre.length < (pre ++ m :: mid1 ++ post).length := by simp
    rw [if_pos htl, hset]
    have hl : (pre ++ [c]).length = pre.length + 1 := by simp
    rw [hl] at hstep
    rw [hstep]
    simp [Nat.add_assoc, Nat.add_comm 1 n, List.replicate_succ]

theorem copyLoop_eq (src buf pre mid post : List Char) (n idx t : Nat)
    (hbuf : buf = pre ++ mid ++ post) (ht : t = pre.length) (hmid : mid.length = n)
    (hsrc : idx + n ≤ src.length) :
    copyLoop src n idx buf t = some (pre ++ (src.drop idx).take n ++ post, t + n) := by
  subst hbuf ht
  exact copyLoop_window src n idx pre mid post hsrc hmid

theorem fillLoop_eq (c : Char) (buf pre mid post : List Char) (n t : Nat)
    (hbuf : buf = pre ++ mid ++ post) (ht : t = pre.length) (hmid : mid.length = n) :
    fillLoop c n buf t = some (pre ++ List.replicate n c ++ post, t + n) := by
  subst hbuf ht
  exact fillLoop_window c n pre mid post hmid

theorem setNUL_last (body : List Char) (x : Char) (i : Nat) (hi : i = body.length) :
    setNUL (body ++ [x]) i = some (body ++ [NUL]) := by
  subst hi
  have h := set_length_append body x NUL []
  unfold setNUL
  rw [if_pos (by simp), h]

theorem replicate_split (a b : Nat) (c : Char) :
    List.replicate (a + b) c = List.replicate a c ++ List.replicate b c := by
  induction a with
  | zero => simp
  | succ a ih =>
    rw [Nat.succ_add, List.replicate_succ, List.replicate_succ, ih]
    rfl

/-! ## `splice_at` -/

/-- The result of `splice_at` when the deleted range lies before the last character. -/
theorem splice_at_eq (A : StaticString) (B : List Char) (s d : Nat)
    (hB : 0 < B.length) (h : s + d < A.len) :
    A.splice_at d s B
      = some ⟨A.chars_.take s ++ B.dropLast ++ A.chars_.dropLast.drop (s + d) ++ [NUL]⟩ := by
  obtain ⟨a⟩ := A
  simp only [StaticString.len] at h
  -- the last character of `A` and the characters before it
  obtain ⟨a0, x, rfl⟩ : ∃ a0 x, a = a0 ++ [x] := by
    refine ⟨a.dropLast, a.getLast (by intro h0; simp [h0] at h), ?_⟩
    exact (List.dropLast_append_getLast _).symm
  have ha0 : s + d ≤ a0.length := by simp at h; omega
  have hcap : (a0 ++ [x]).length + B.length - d - 1
      = s + ((B.length - 1) + ((a0.length - (s + d)) + 1)) := by
    simp; omega
  have hcnt : (a0 ++ [x]).length - (s + d) = (a0.length - (s + d)) + 1 := by
    simp; omega
  have hnw : ¬ ((a0 ++ [x]).length + B.length < d + 1) := by simp; omega
  have hidx : (a0 ++ [x]).length + B.length - d - 2
      = (List.take s a0 ++ B.dropLast ++ List.drop (s + d) a0).length := by
    simp; omega
  have htake : List.take s (a0 ++ [x]) = List.take s a0 :=
    List.take_append_of_le_length (by omega)
  have hdropA : List.drop (s + d) (a0 ++ [x]) = List.drop (s + d) a0 ++ [x] :=
    List.drop_append_of_le_length ha0
  have h1 := copyLoop_eq (a0 ++ [x])
    (List.replicate (s + ((B.length - 1) + ((a0.length - (s + d)) + 1))) NUL)
    [] (List.replicate s NUL)
    (List.replicate ((B.length - 1) + ((a0.length - (s + d)) + 1)) NUL) s 0 0
    (by simp [replicate_split]) rfl (by simp) (by simp; omega)
  have h2 := copyLoop_eq B
    ([] ++ List.take s (List.drop 0 (a0 ++ [x]))
      ++ List.replicate ((B.length - 1) + ((a0.length - (s + d)) + 1)) NUL)
    (List.take s a0) (List.replicate (B.length - 1) NUL)
    (List.replicate ((a0.length - (s + d)) + 1) NUL) (B.length - 1) 0 (0 + s)
    (by simp [replicate_split, htake]) (by simp; omega) (by simp) (by omega)
  have h3 := copyLoop_eq (a0 ++ [x])
    (List.take s a0 ++ List.take (B.length - 1) (List.drop 0 B)
      ++ List.replicate ((a0.length - (s + d)) + 1) NUL)
    (List.take s a0 ++ B.dropLast) (List.replicate ((a0.length - (s + d)) + 1) NUL) []
    ((a0.length - (s + d)) + 1) (s + d) (0 + s + (B.length - 1))
    (by simp [List.dropLast_eq_take]) (by simp; omega) (by simp) (by simp; omega)
  have htk : List.take ((a0.length - (s + d)) + 1) (List.drop (s + d) a0 ++ [x])
      = List.drop (s + d) a0 ++ [x] :=
    List.take_of_length_le (by simp)
  have h4 := setNUL_last (List.take s a0 ++ B.dropLast ++ List.drop (s + d) a0) x
    ((a0.length + 1) + B.length - d - 2) (by simpa using hidx)
  have hpos : 0 < s + ((B.length - 1) + ((a0.length - (s + d)) + 1)) := by omega
  simp only [StaticString.splice_at, StaticString.len, StaticString.zeroed, if_neg hnw, hcap,
    hcnt, if_pos hpos, h1, h2, h3, hdropA, htk, List.append_nil]
  have hlen1 : (a0 ++ [x]).length = a0.length + 1 := by simp
  rw [hlen1]
  simp only [← List.append_assoc]
  rw [h4]
  simp [htake]

/-! ## `applyFormat` -/

/-- The result of `applyFormat` on a value of positive capacity. -/
theorem applyFormat_eq (sp : FormatSpec) (v : StaticString) (hv : 0 < v.len) :
    applyFormat sp v = some ⟨
      if sp.alignSide = '>' then
        List.replicate (padCount sp v) sp.fillChar ++ v.chars_.dropLast ++ [NUL]
      else
        v.chars_.dropLast ++ List.replicate (padCount sp v) sp.fillChar ++ [NUL]⟩ := by
  obtain ⟨a⟩ := v
  simp only [StaticString.len] at hv
  obtain ⟨v0, x, rfl⟩ : ∃ v0 x, a = v0 ++ [x] := by
    refine ⟨a.dropLast, a.getLast (by intro h0; simp [h0] at hv), ?_⟩
    exact (List.dropLast_append_getLast _).symm
  generalize hk : padCount sp ⟨v0 ++ [x]⟩ = k
  have hLen : max sp.width (v0.length + 1) = k + (v0.length + 1) := by
    simp only [padCount, StaticString.len] at hk
    simp only [List.length_append, List.length_singleton] at hk
    have hm := max_spec sp.width (v0.length + 1)
    omega
  have hlenv : (v0 ++ [x]).length = v0.length + 1 := by simp
  have hpos : 0 < k + (v0.length + 1) := by omega
  have hc1 : k + (v0.length + 1) - (v0.length + 1) = k := by omega
  have hc2 : k + (v0.length + 1) - 1 - (v0.length + 1 - 1) = k := by omega
  have hc3 : v0.length + 1 - 1 = v0.length := by omega
  have hc4 : k + (v0.length + 1) - 1 = k + v0.length := by omega
  have hc5 : k + v0.length - v0.length = k := by omega
  simp only [applyFormat, StaticString.len, StaticString.zeroed, hLen, if_pos hpos, hlenv,
    hc1, hc2, hc3, hc4, hc5, List.dropLast_concat]
  by_cases hal : sp.alignSide = '>'
  · have f1 := fillLoop_eq sp.fillChar (List.replicate (k + (v0.length + 1)) NUL) []
      (List.replicate k NUL) (List.replicate (v0.length + 1) NUL) k 0
      (by simp [replicate_split]) rfl (by simp)
    have f2 := copyLoop_eq (v0 ++ [x])
      ([] ++ List.replicate k sp.fillChar ++ List.replicate (v0.length + 1) NUL)
      (List.replicate k sp.fillChar) (List.replicate (v0.length + 1) NUL) []
      (v0.length + 1) 0 (0 + k) (by simp) (by simp) (by simp) (by simp)
    have f3 := setNUL_last (List.replicate k sp.fillChar ++ v0) x (k + v0.length) (by simp)
    have htk : List.take (v0.length + 1) (v0 ++ [x]) = v0 ++ [x] :=
      List.take_of_length_le (by simp)
    simp only [if_pos hal, f1, f2, List.drop_zero, htk, List.append_nil,
      ← List.append_assoc, f3]
  · have f1 := copyLoop_eq (v0 ++ [x]) (List.replicate (k + (v0.length + 1)) NUL) []
      (List.replicate v0.length NUL) (List.replicate (k + 1) NUL) v0.length 0 0
      (by simp [← replicate_split]; omega) rfl (by simp) (by simp)
    have f2 := fillLoop_eq sp.fillChar
      ([] ++ List.take v0.length (List.drop 0 (v0 ++ [x])) ++ List.replicate (k + 1) NUL)
      v0 (List.replicate k NUL) [NUL] k (0 + v0.length)
      (by simp [replicate_split]) (by simp) (by simp)
    have f3 := setNUL_last (v0 ++ List.replicate k sp.fillChar) NUL (k + v0.length)
      (by simp; omega)
    simp only [if_neg hal, f1, f2, f3]

/-! ## The parser -/

theorem digitLoop_digits (ds : List Char) (hd : ∀ c ∈ ds, isDigit c = true)
    (c : Char) (tail : List Char) (hc : isDigit c = false) :
    digitLoop (ds ++ c :: tail) = (ds, c :: tail) := by
  induction ds with
  | nil => simp [digitLoop, hc]
  | cons d ds ih =>
    have h1 : isDigit d = true := hd d (List.mem_cons_self _ _)
    have h2 := ih (fun x hx => hd x (List.mem_cons_of_mem _ hx))
    simp [digitLoop, h1, h2]

theorem widthField_digits (i p : Nat) (a f : Char) (w : Char) (W S : List Char)
    (hd : ∀ c ∈ w :: W, isDigit c = true) :
    FormatSpec.widthField i a f p w (W ++ '}' :: S)
      = FormatSpec.leave 0 (to_unsigned (w :: W)) a f i (p + (W.length + 1)) := by
  have h1 : isDigit w = true := hd w (List.mem_cons_self _ _)
  have h2 : digitLoop (w :: (W ++ '}' :: S)) = (w :: W, '}' :: S) :=
    digitLoop_digits (w :: W) hd '}' S (by decide)
  simp [FormatSpec.widthField, h1, h2]

theorem scan_no_brace (len : Nat) (P : List Char) (hP : '{' ∉ P) :
    ∀ p, FormatSpec.scan len p P = ⟨0, 0, '<', ' ', len, 0 + (p + P.length - len)⟩ := by
  induction P with
  | nil => intro p; simp [FormatSpec.scan]
  | cons c P ih =>
    intro p
    have hc : c ≠ '{' := fun h => hP (by simp [h])
    have hP1 : '{' ∉ P := fun h => hP (List.mem_cons_of_mem _ h)
    simp only [FormatSpec.scan, if_pos hc, ih hP1 (p + 1)]
    simp [Nat.add_assoc, Nat.add_comm 1]

theorem scan_brace (len : Nat) (P rest : List Char) (hP : '{' ∉ P) :
    ∀ p, FormatSpec.scan len p (P ++ '{' :: rest) = FormatSpec.afterBrace (p + P.length) rest := by
  induction P with
  | nil => intro p; simp [FormatSpec.scan]
  | cons c P ih =>
    intro p
    have hc : c ≠ '{' := fun h => hP (by simp [h])
    have hP1 : '{' ∉ P := fun h => hP (List.mem_cons_of_mem _ h)
    have e : p + (c :: P).length = p + 1 + P.length := by simp; omega
    rw [e, ← ih hP1 (p + 1), List.cons_append]
    simp only [FormatSpec.scan, if_pos hc]

theorem ctor_brace (P rest : List Char) (hP : '{' ∉ P) :
    FormatSpec.ctor (P ++ '{' :: rest) = FormatSpec.afterBrace P.length rest := by
  simp [FormatSpec.ctor, scan_brace _ P rest hP]

theorem ctor_no_brace (P : List Char) (hP : '{' ∉ P) :
    FormatSpec.ctor P = ⟨0, 0, '<', ' ', P.length, 0⟩ := by
  simp [FormatSpec.ctor, scan_no_brace _ P hP]

/-- The parser on a valid placeholder of the grammar. -/
theorem ctor_placeholder (P S : List Char) (ph : Placeholder) (hP : '{' ∉ P)
    (hv : ph.Valid) :
    FormatSpec.ctor (P ++ ph.text ++ S)
      = ⟨0, (match ph with | .plain => 0 | .aligned _ _ W => to_unsigned W),
          ph.alignSide, ph.fillChar, P.length, ph.text.length⟩ := by
  cases ph with
  | plain =>
    have := ctor_brace P ('}' :: S) hP
    simp only [Placeholder.text, List.append_assoc, List.cons_append, List.nil_append]
    rw [this]
    simp [FormatSpec.afterBrace, FormatSpec.leave, Placeholder.alignSide, Placeholder.fillChar]
  | aligned fill align W =>
    obtain ⟨hal, hfill, hW, hd⟩ := hv
    obtain ⟨w, W1, rfl⟩ : ∃ w W1, W = w :: W1 := by
      cases W with
      | nil => exact absurd rfl hW
      | cons w W1 => exact ⟨w, W1, rfl⟩
    have hal1 : align ≠ '}' := by rcases hal with h | h <;> (rw [h]; decide)
    cases fill with
    | none =>
      have := ctor_brace P (':' :: align :: w :: (W1 ++ '}' :: S)) hP
      simp only [Placeholder.text, List.append_assoc, List.cons_append, List.nil_append,
        Option.toList, List.singleton_append] at this ⊢
      rw [this]
      simp only [FormatSpec.afterBrace, if_pos hal, widthField_digits _ _ _ _ w W1 S hd]
      simp [FormatSpec.leave, Placeholder.alignSide, Placeholder.fillChar]
      omega
    | some F =>
      obtain ⟨hF1, hF2⟩ := hfill F rfl
      have hF : ¬ (F = '<' ∨ F = '>') := by
        intro h; rcases h with h | h
        · exact hF1 h
        · exact hF2 h
      have := ctor_brace P (':' :: F :: align :: w :: (W1 ++ '}' :: S)) hP
      simp only [Placeholder.text, List.append_assoc, List.cons_append, List.nil_append,
        Option.toList, List.singleton_append] at this ⊢
      rw [this]
      simp only [FormatSpec.afterBrace, if_neg hF, if_pos hal,
        widthField_digits _ _ _ _ w W1 S hd]
      simp [FormatSpec.leave, Placeholder.alignSide, Placeholder.fillChar]
      omega

theorem digitLoop_append (l : List Char) : (digitLoop l).1 ++ (digitLoop l).2 = l := by
  induction l with
  | nil => simp [digitLoop]
  | cons c l ih =>
    by_cases h : isDigit c = true
    · simp [digitLoop, h, ih]
    · simp [digitLoop, h]

theorem digitLoop_fst_digits (l : List Char) : ∀ c ∈ (digitLoop l).1, isDigit c = true := by
  induction l with
  | nil => simp [digitLoop]
  | cons c l ih =>
    by_cases h : isDigit c = true
    · simp only [digitLoop, h, if_true]
      intro x hx
      rcases List.mem_cons.mp hx with rfl | hx
      · exact h
      · exact ih x hx
    · simp [digitLoop, h]

/-- A successful width part: a non-empty run of digits closed by `}`. -/
theorem widthField_ok (i k : Nat) (a f c : Char) (r : List Char)
    (h : (FormatSpec.widthField i a f (i + k) c r).numErrors = 0) :
    ∃ ds S, c :: r = ds ++ '}' :: S ∧ ds ≠ [] ∧ (∀ x ∈ ds, isDigit x = true) ∧
      FormatSpec.widthField i a f (i + k) c r = ⟨0, to_unsigned ds, a, f, i, 1 + (k + ds.length)⟩ := by
  unfold FormatSpec.widthField at h ⊢
  by_cases hc : isDigit c = true
  · simp only [hc, not_true_eq_false, if_false] at h ⊢
    have happ := digitLoop_append (c :: r)
    have hdig := digitLoop_fst_digits (c :: r)
    have hne : (digitLoop (c :: r)).1 ≠ [] := by simp [digitLoop, hc]
    generalize (digitLoop (c :: r)).1 = ds at h happ hdig hne ⊢
    generalize (digitLoop (c :: r)).2 = tl at h happ ⊢
    cases tl with
    | nil => simp [FormatSpec.leave] at h
    | cons c1 t =>
      by_cases h1 : c1 = '}'
      · subst h1
        refine ⟨ds, t, happ.symm, hne, hdig, ?_⟩
        simp [FormatSpec.leave]
        omega
      · simp [h1, FormatSpec.leave] at h
  · simp [hc, FormatSpec.leave] at h

/-- A successful width part, with the first digit made explicit. -/
theorem widthField_ok_cons (i k : Nat) (a f c : Char) (r : List Char)
    (h : (FormatSpec.widthField i a f (i + k) c r).numErrors = 0) :
    ∃ W S, r = W ++ '}' :: S ∧ (∀ x ∈ c :: W, isDigit x = true) ∧
      FormatSpec.widthField i a f (i + k) c r
        = ⟨0, to_unsigned (c :: W), a, f, i, 1 + (k + (W.length + 1))⟩ := by
  obtain ⟨ds, S, hsplit, hne, hd, heq⟩ := widthField_ok i k a f c r h
  cases ds with
  | nil => exact absurd rfl hne
  | cons w W =>
    simp only [List.cons_append, List.cons.injEq] at hsplit
    obtain ⟨rfl, rfl⟩ := hsplit
    exact ⟨W, S, rfl, hd, by simpa using heq⟩

theorem widthField_digits_shift (j k : Nat) (a f : Char) (w : Char) (W Y : List Char)
    (hd : ∀ c ∈ w :: W, isDigit c = true) :
    FormatSpec.widthField j a f (j + k) w (W ++ '}' :: Y)
      = ⟨0, to_unsigned (w :: W), a, f, j, 1 + (k + (W.length + 1))⟩ := by
  rw [widthField_digits j (j + k) a f w W Y hd]
  simp [FormatSpec.leave]
  omega

/-- A successful parse after `{`: the text up to the closing `}` decides the result, which
depends on the position of the `{` through `specBegin` only. -/
theorem afterBrace_ok (i : Nat) (rest : List Char)
    (h : (FormatSpec.afterBrace i rest).numErrors = 0) :
    ∃ body S, rest = body ++ '}' :: S ∧
      (FormatSpec.afterBrace i rest).specLength = body.length + 2 ∧
      (FormatSpec.afterBrace i rest).specBegin = i ∧
      ∀ j Y, FormatSpec.afterBrace j (body ++ '}' :: Y)
        = (FormatSpec.afterBrace i rest).withBegin j := by
  cases rest with
  | nil => simp [FormatSpec.afterBrace, FormatSpec.leave] at h
  | cons c1 r1 =>
    by_cases h1 : c1 = '}'
    · subst h1
      refine ⟨[], r1, rfl, ?_, ?_, ?_⟩ <;>
        simp [FormatSpec.afterBrace, FormatSpec.leave, FormatSpec.withBegin]
    by_cases h2 : c1 = ':'
    swap
    · simp [FormatSpec.afterBrace, FormatSpec.leave, h1, h2] at h
    subst h2
    cases r1 with
    | nil => simp [FormatSpec.afterBrace, FormatSpec.leave] at h
    | cons c2 r2 =>
      by_cases hal : c2 = '<' ∨ c2 = '>'
      · cases r2 with
        | nil => simp [FormatSpec.afterBrace, FormatSpec.leave, hal] at h
        | cons c3 r3 =>
          have hw : FormatSpec.afterBrace i (':' :: c2 :: c3 :: r3)
              = FormatSpec.widthField i c2 ' ' (i + 3) c3 r3 := by
            simp [FormatSpec.afterBrace, hal]
          rw [hw] at h ⊢
          obtain ⟨W, S, rfl, hd, heq⟩ := widthField_ok_cons i 3 c2 ' ' c3 r3 h
          refine ⟨':' :: c2 :: c3 :: W, S, by simp, ?_, ?_, ?_⟩
          · rw [heq]; simp; omega
          · rw [heq]
          · intro j Y
            have hw2 : FormatSpec.afterBrace j ((':' :: c2 :: c3 :: W) ++ '}' :: Y)
                = FormatSpec.widthField j c2 ' ' (j + 3) c3 (W ++ '}' :: Y) := by
              simp [FormatSpec.afterBrace, hal]
            rw [hw2, heq, widthField_digits_shift j 3 c2 ' ' c3 W Y hd]
            rfl
      · cases r2 with
        | nil => simp [FormatSpec.afterBrace, FormatSpec.leave, hal] at h
        | cons c3 r3 =>
          by_cases hal3 : c3 = '<' ∨ c3 = '>'
          · cases r3 with
            | nil => simp [FormatSpec.afterBrace, FormatSpec.leave, hal, hal3] at h
            | cons c4 r4 =>
              have hw : FormatSpec.afterBrace i (':' :: c2 :: c3 :: c4 :: r4)
                  = FormatSpec.widthField i c3 c2 (i + 4) c4 r4 := by
                simp [FormatSpec.afterBrace, hal, hal3]
              rw [hw] at h ⊢
              obtain ⟨W, S, rfl, hd, heq⟩ := widthField_ok_cons i 4 c3 c2 c4 r4 h
              refine ⟨':' :: c2 :: c3 :: c4 :: W, S, by simp, ?_, ?_, ?_⟩
              · rw [heq]; simp; omega
              · rw [heq]
              · intro j Y
                have hw2 : FormatSpec.afterBrace j ((':' :: c2 :: c3 :: c4 :: W) ++ '}' :: Y)
                    = FormatSpec.widthField j c3 c2 (j + 4) c4 (W ++ '}' :: Y) := by
                  simp [FormatSpec.afterBrace, hal, hal3]
                rw [hw2, heq, widthField_digits_shift j 4 c3 c2 c4 W Y hd]
                rfl
          · have hw : FormatSpec.afterBrace i (':' :: c2 :: c3 :: r3)
                = FormatSpec.widthField i '<' c2 (i + 3) c3 r3 := by
              simp [FormatSpec.afterBrace, hal, hal3]
            rw [hw] at h ⊢
            obtain ⟨W, S, rfl, hd, heq⟩ := widthField_ok_cons i 3 '<' c2 c3 r3 h
            refine ⟨':' :: c2 :: c3 :: W, S, by simp, ?_, ?_, ?_⟩
            · rw [heq]; simp; omega
            · rw [heq]
            · intro j Y
              have hw2 : FormatSpec.afterBrace j ((':' :: c2 :: c3 :: W) ++ '}' :: Y)
                  = FormatSpec.widthField j '<' c2 (j + 3) c3 (W ++ '}' :: Y) := by
                simp [FormatSpec.afterBrace, hal, hal3]
              rw [hw2, heq, widthField_digits_shift j 3 '<' c2 c3 W Y hd]
              rfl

/-! ## The parser on a whole view -/

theorem split_first_brace (fs : List Char) :
    '{' ∉ fs ∨ ∃ P rest, fs = P ++ '{' :: rest ∧ '{' ∉ P := by
  induction fs with
  | nil => left; simp
  | cons c fs ih =>
    by_cases hc : c = '{'
    · right; exact ⟨[], fs, by simp [hc], by simp⟩
    · rcases ih with h | ⟨P, rest, rfl, hP⟩
      · left
        intro hm
        rcases List.mem_cons.mp hm with h1 | h1
        · exact hc h1.symm
        · exact h h1
      · right
        refine ⟨c :: P, rest, by simp, ?_⟩
        intro hm
        rcases List.mem_cons.mp hm with h1 | h1
        · exact hc h1.symm
        · exact hP h1

/-- A successful parse that found a placeholder: the view is `P ++ {body} ++ S` with no `{`
in `P`, and the same placeholder is parsed to the same result after any `{`-free prefix and
before any suffix. -/
theorem ctor_ok (fs : List Char) (h0 : (FormatSpec.ctor fs).numErrors = 0)
    (hpos : 0 < (FormatSpec.ctor fs).specLength) :
    ∃ P body S, fs = P ++ '{' :: (body ++ '}' :: S) ∧ '{' ∉ P ∧
      (FormatSpec.ctor fs).specBegin = P.length ∧
      (FormatSpec.ctor fs).specLength = body.length + 2 ∧
      ∀ Q Y, '{' ∉ Q → FormatSpec.ctor (Q ++ '{' :: (body ++ '}' :: Y))
        = (FormatSpec.ctor fs).withBegin Q.length := by
  rcases split_first_brace fs with hno | ⟨P, rest, rfl, hP⟩
  · rw [ctor_no_brace fs hno] at hpos
    simp at hpos
  · rw [ctor_brace P rest hP] at h0 ⊢
    obtain ⟨body, S, rfl, hlen, hbeg, hall⟩ := afterBrace_ok P.length rest h0
    refine ⟨P, body, S, rfl, hP, hbeg, hlen, ?_⟩
    intro Q Y hQ
    rw [ctor_brace Q _ hQ]
    exact hall Q.length Y

/-- The view of a fixed string: the characters before the first terminator. -/
theorem string_view_split (pre post : List Char) (h : NUL ∉ pre) :
    string_view (pre ++ NUL :: post) = some pre := by
  have h1 : NUL ∈ pre ++ NUL :: post := by simp
  have h2 : List.takeWhile (fun c => decide (c ≠ NUL)) (pre ++ NUL :: post) = pre := by
    rw [List.takeWhile_append_of_pos]
    · simp [List.takeWhile]
    · intro a ha
      have : a ≠ NUL := fun e => h (e ▸ ha)
      simpa using this
  simp only [string_view, if_pos h1]
  rw [h2]

/-- Any defined view is a prefix of the array that stops at a terminator. -/
theorem string_view_some (chars fs : List Char) (h : string_view chars = some fs) :
    ∃ post, chars = fs ++ NUL :: post ∧ NUL ∉ fs := by
  unfold string_view at h
  by_cases hm : NUL ∈ chars
  · rw [if_pos hm] at h
    obtain ⟨pre, post, rfl, hpre⟩ : ∃ pre post, chars = pre ++ NUL :: post ∧ NUL ∉ pre := by
      clear h
      induction chars with
      | nil => simp at hm
      | cons c cs ih =>
        by_cases hc : c = NUL
        · exact ⟨[], cs, by simp [hc], by simp⟩
        · have hm1 : NUL ∈ cs := by
            rcases List.mem_cons.mp hm with h1 | h1
            · exact absurd h1.symm hc
            · exact h1
          obtain ⟨pre, post, rfl, hpre⟩ := ih hm1
          refine ⟨c :: pre, post, by simp, ?_⟩
          intro hx
          rcases List.mem_cons.mp hx with h1 | h1
          · exact hc h1.symm
          · exact hpre h1
    have := string_view_split pre post hpre
    unfold string_view at this
    rw [if_pos hm] at this
    rw [this] at h
    injection h with h
    subst h
    exact ⟨post, rfl, hpre⟩
  · rw [if_neg hm] at h
    cases h

/-! ## One step of `format` -/

theorem applyFormat_render (sp : FormatSpec) (v : StaticString) (hv : 0 < v.len) :
    applyFormat sp v = some ⟨render sp v ++ [NUL]⟩ := by
  rw [applyFormat_eq sp v hv]
  unfold render StaticString.visible
  by_cases h : sp.alignSide = '>'
  · simp [h]
  · simp [h]

/-- A successful parse delimits a range that ends before the end of the view. -/
theorem ctor_range (fs : List Char) (h0 : (FormatSpec.ctor fs).numErrors = 0)
    (hpos : 0 < (FormatSpec.ctor fs).specLength) :
    (FormatSpec.ctor fs).specBegin + (FormatSpec.ctor fs).specLength ≤ fs.length := by
  obtain ⟨P, body, S, rfl, _, hb, hl, _⟩ := ctor_ok fs h0 hpos
  rw [hb, hl]
  simp only [List.length_append, List.length_cons]
  omega

/-- One step of `format`: parse, render, splice, recurse. -/
theorem format_step_eq (T : StaticString) (fs : List Char) (v : StaticString)
    (vs : List StaticString) (hfs : string_view T.chars_ = some fs)
    (h0 : (FormatSpec.ctor fs).numErrors = 0) (hpos : 0 < (FormatSpec.ctor fs).specLength)
    (hv : 0 < v.len) :
    format T (v :: vs)
      = format ⟨T.chars_.take (FormatSpec.ctor fs).specBegin ++ render (FormatSpec.ctor fs) v
          ++ T.chars_.dropLast.drop
              ((FormatSpec.ctor fs).specBegin + (FormatSpec.ctor fs).specLength)
          ++ [NUL]⟩ vs := by
  obtain ⟨post, hch, _⟩ := string_view_some T.chars_ fs hfs
  have hr := ctor_range fs h0 hpos
  have hlen : (FormatSpec.ctor fs).specBegin + (FormatSpec.ctor fs).specLength < T.len := by
    unfold StaticString.len
    rw [hch]
    simp
    omega
  have hsp := splice_at_eq T (render (FormatSpec.ctor fs) v ++ [NUL])
    (FormatSpec.ctor fs).specBegin (FormatSpec.ctor fs).specLength (by simp) hlen
  rw [List.dropLast_concat] at hsp
  have hn : ¬ (FormatSpec.ctor fs).numErrors ≠ 0 := by simp [h0]
  have hp : ¬ ¬ (0 < (FormatSpec.ctor fs).specLength) := by simp; omega
  conv_lhs => unfold format
  simp only [hfs, if_neg hn, if_neg hp, applyFormat_render _ v hv, hsp]

theorem split_before_brace (Q X P Z : List Char) (h : Q ++ X = P ++ '{' :: Z) (hQ : '{' ∉ Q) :
    ∃ P1, P = Q ++ P1 ∧ X = P1 ++ '{' :: Z := by
  rcases List.append_eq_append_iff.mp h with ⟨a, ha, hb⟩ | ⟨c, hc, hd⟩
  · exact ⟨a, ha, hb⟩
  · cases c with
    | nil =>
      refine ⟨[], by simpa using hc.symm, ?_⟩
      simpa using hd.symm
    | cons x c =>
      simp only [List.cons_append, List.cons.injEq] at hd
      exfalso
      apply hQ
      rw [hc, ← hd.1]
      simp

/-- A successful step of `format` on a template whose text starts with a `{`-free part `Q`:
the parser found the first placeholder of the rest `S`, and the evaluation goes on with the
rendering spliced in. -/
theorem format_step_some (Q S : List Char) (v : StaticString) (vs : List StaticString)
    (R : StaticString) (hQ : '{' ∉ Q) (hv : 0 < v.len)
    (h : format ⟨Q ++ S ++ [NUL]⟩ (v :: vs) = some R) :
    (FormatSpec.ctor S).numErrors = 0 ∧ 0 < (FormatSpec.ctor S).specLength ∧
      '{' ∉ S.take (FormatSpec.ctor S).specBegin ∧
      format ⟨(Q ++ S.take (FormatSpec.ctor S).specBegin ++ render (FormatSpec.ctor S) v)
        ++ S.drop ((FormatSpec.ctor S).specBegin + (FormatSpec.ctor S).specLength)
        ++ [NUL]⟩ vs = some R := by
  -- the view of the template
  have hview : ∃ fs, string_view (Q ++ S ++ [NUL]) = some fs := by
    have : NUL ∈ Q ++ S ++ [NUL] := by simp
    exact ⟨_, if_pos this⟩
  obtain ⟨fs, hfs⟩ := hview
  have hn0 : (FormatSpec.ctor fs).numErrors = 0 := by
    by_contra hne
    unfold format at h
    simp only [hfs] at h
    rw [if_pos hne] at h
    cases h
  have hpos : 0 < (FormatSpec.ctor fs).specLength := by
    by_contra hne
    unfold format at h
    simp only [hfs] at h
    rw [if_neg (by simp [hn0]), if_pos hne] at h
    cases h
  obtain ⟨post, hch, _⟩ := string_view_some _ fs hfs
  obtain ⟨P, body, S0, hfsd, hP, hb, hl, hall⟩ := ctor_ok fs hn0 hpos
  -- the placeholder lies in `S`
  have hch2 : Q ++ (S ++ [NUL]) = P ++ '{' :: (body ++ '}' :: (S0 ++ NUL :: post)) := by
    have := hch
    rw [hfsd] at this
    simpa using this
  obtain ⟨P1, hPQ, hS1⟩ := split_before_brace Q _ P _ hch2 hQ
  obtain ⟨Y, z, hYz⟩ : ∃ Y z, S0 ++ NUL :: post = Y ++ [z] := by
    refine ⟨(S0 ++ NUL :: post).dropLast, (S0 ++ NUL :: post).getLast (by simp), ?_⟩
    exact (List.dropLast_append_getLast _).symm
  have hS2 : S ++ [NUL] = (P1 ++ '{' :: (body ++ '}' :: Y)) ++ [z] := by
    rw [hS1, hYz]; simp
  have hS : S = P1 ++ '{' :: (body ++ '}' :: Y) := (List.append_inj' hS2 rfl).1
  have hP1 : '{' ∉ P1 := by
    intro hm; apply hP; rw [hPQ]; simp [hm]
  have hctorS : FormatSpec.ctor S = (FormatSpec.ctor fs).withBegin P1.length := by
    rw [hS]; exact hall P1 Y hP1
  have hbS : (FormatSpec.ctor S).specBegin = P1.length := by rw [hctorS]; rfl
  have hlS : (FormatSpec.ctor S).specLength = body.length + 2 := by rw [hctorS]; exact hl
  have hnS : (FormatSpec.ctor S).numErrors = 0 := by rw [hctorS]; exact hn0
  have hrS : render (FormatSpec.ctor S) v = render (FormatSpec.ctor fs) v := by
    rw [hctorS]; rfl
  have htakeS : S.take (FormatSpec.ctor S).specBegin = P1 := by
    rw [hbS, hS]; simp
  have hdropS : S.drop ((FormatSpec.ctor S).specBegin + (FormatSpec.ctor S).specLength) = Y := by
    rw [hbS, hlS, hS]
    have e : P1 ++ '{' :: (body ++ '}' :: Y) = (P1 ++ '{' :: (body ++ ['}'])) ++ Y := by simp
    rw [e]
    exact List.drop_left' (by simp)
  refine ⟨hnS, by omega, by rw [htakeS]; exact hP1, ?_⟩
  rw [htakeS, hdropS, hrS]
  rw [format_step_eq ⟨Q ++ S ++ [NUL]⟩ fs v vs hfs hn0 hpos hv] at h
  have htk : List.take (FormatSpec.ctor fs).specBegin (Q ++ S ++ [NUL]) = Q ++ P1 := by
    rw [hb, hPQ, hS]
    have e : Q ++ (P1 ++ '{' :: (body ++ '}' :: Y)) ++ [NUL]
        = (Q ++ P1) ++ ('{' :: (body ++ '}' :: Y) ++ [NUL]) := by simp
    rw [e]
    exact List.take_left' (by simp)
  have hdr : List.drop ((FormatSpec.ctor fs).specBegin + (FormatSpec.ctor fs).specLength)
      (Q ++ S ++ [NUL]).dropLast = Y := by
    rw [List.dropLast_concat, hb, hl, hPQ, hS]
    have e : Q ++ (P1 ++ '{' :: (body ++ '}' :: Y)) = (Q ++ P1 ++ '{' :: (body ++ ['}'])) ++ Y := by
      simp
    rw [e]
    exact List.drop_left' (by simp; omega)
  simp only [htk, hdr] at h
  simpa using h

/-! ## `format` against the one-pass substitution -/

/-- When no rendered text contains `{`, a successful `format` is the one-pass
substitution: the text `Q` already produced is never parsed again. -/
theorem format_some_substitute (vs : List StaticString) :
    ∀ (Q S : List Char) (R : StaticString), '{' ∉ Q → (∀ v ∈ vs, 0 < v.len) →
      cleanRun S vs = true → format ⟨Q ++ S ++ [NUL]⟩ vs = some R →
      ∃ out, substitute S vs = some out ∧ R.chars_ = Q ++ out ++ [NUL] := by
  induction vs with
  | nil =>
    intro Q S R _ _ _ h
    simp only [format, Option.some.injEq] at h
    subst h
    exact ⟨S, rfl, rfl⟩
  | cons v vs ih =>
    intro Q S R hQ hvs hclean h
    have hv : 0 < v.len := hvs v (List.mem_cons_self _ _)
    obtain ⟨hn, hpos, hP1, hnext⟩ := format_step_some Q S v vs R hQ hv h
    have hcond : ¬ ((FormatSpec.ctor S).numErrors ≠ 0 ∨ (FormatSpec.ctor S).specLength = 0) := by
      intro hc
      rcases hc with hc | hc
      · exact hc hn
      · omega
    simp only [cleanRun, if_neg hcond, Bool.and_eq_true, Bool.not_eq_true',
      decide_eq_false_iff_not] at hclean
    obtain ⟨hr, hclean1⟩ := hclean
    have hQ1 : '{' ∉ Q ++ S.take (FormatSpec.ctor S).specBegin ++ render (FormatSpec.ctor S) v := by
      intro hm
      rcases List.mem_append.mp hm with hm | hm
      · rcases List.mem_append.mp hm with hm | hm
        · exact hQ hm
        · exact hP1 hm
      · exact hr hm
    obtain ⟨out, hsub, hR⟩ := ih _ _ R hQ1
      (fun x hx => hvs x (List.mem_cons_of_mem _ hx)) hclean1 hnext
    refine ⟨S.take (FormatSpec.ctor S).specBegin ++ render (FormatSpec.ctor S) v ++ out, ?_, ?_⟩
    · simp only [substitute, if_neg hcond, hsub]
    · rw [hR]; simp

/-- A successful one-pass substitution consumes one placeholder per value. -/
theorem substitute_some_count (vs : List StaticString) :
    ∀ (S out : List Char), substitute S vs = some out →
      vs.length ≤ S.length ∧ ∀ fuel, vs.length ≤ fuel → vs.length ≤ countPlaceholders fuel S := by
  induction vs with
  | nil => intro S out _; simp
  | cons v vs ih =>
    intro S out h
    by_cases hcond : (FormatSpec.ctor S).numErrors ≠ 0 ∨ (FormatSpec.ctor S).specLength = 0
    · simp [substitute, hcond] at h
    · simp only [substitute, if_neg hcond] at h
      have hn : (FormatSpec.ctor S).numErrors = 0 := by
        by_contra hne; exact hcond (Or.inl hne)
      have hpos : 0 < (FormatSpec.ctor S).specLength := by
        rcases Nat.eq_zero_or_pos (FormatSpec.ctor S).specLength with h0 | h0
        · exact absurd (Or.inr h0) hcond
        · exact h0
      have hrange := ctor_range S hn hpos
      cases hsub : substitute
          (S.drop ((FormatSpec.ctor S).specBegin + (FormatSpec.ctor S).specLength)) vs with
      | none => simp [hsub] at h
      | some out1 =>
        obtain ⟨hlen, hcnt⟩ := ih _ out1 hsub
        simp only [List.length_drop] at hlen
        refine ⟨by simp only [List.length_cons]; omega, ?_⟩
        intro fuel hfuel
        cases fuel with
        | zero => simp at hfuel
        | succ fuel =>
          simp only [countPlaceholders, if_neg hcond, List.length_cons]
          have := hcnt fuel (by simpa using hfuel)
          omega

/-! ## The failure conditions of the parser -/

theorem digitLoop_all_digits (ds : List Char) (hd : ∀ c ∈ ds, isDigit c = true) :
    digitLoop ds = (ds, []) := by
  induction ds with
  | nil => rfl
  | cons d ds ih =>
    have h1 : isDigit d = true := hd d (List.mem_cons_self _ _)
    have h2 := ih (fun x hx => hd x (List.mem_cons_of_mem _ hx))
    simp [digitLoop, h1, h2]

theorem widthField_not_digit (i p : Nat) (a f c : Char) (r : List Char)
    (hc : isDigit c = false) : (FormatSpec.widthField i a f p c r).numErrors = 1 := by
  simp [FormatSpec.widthField, hc, FormatSpec.leave]

theorem widthField_digits_end (i p : Nat) (a f w : Char) (W : List Char)
    (hd : ∀ c ∈ w :: W, isDigit c = true) :
    (FormatSpec.widthField i a f p w W).numErrors = 1 := by
  have h1 : isDigit w = true := hd w (List.mem_cons_self _ _)
  have h2 := digitLoop_all_digits (w :: W) hd
  simp [FormatSpec.widthField, h1, h2, FormatSpec.leave]

theorem widthField_digits_other (i p : Nat) (a f w : Char) (W : List Char) (c : Char)
    (r : List Char) (hd : ∀ x ∈ w :: W, isDigit x = true) (hc : isDigit c = false)
    (hb : c ≠ '}') :
    (FormatSpec.widthField i a f p w (W ++ c :: r)).numErrors = 1 := by
  have h1 : isDigit w = true := hd w (List.mem_cons_self _ _)
  have h2 : digitLoop (w :: (W ++ c :: r)) = (w :: W, c :: r) :=
    digitLoop_digits (w :: W) hd c r hc
  simp [FormatSpec.widthField, h1, h2, hb, FormatSpec.leave]

theorem digit_not_align {c : Char} (h : isDigit c = true) : ¬ (c = '<' ∨ c = '>') := by
  intro hc
  rcases hc with rfl | rfl
  · exact absurd h (by decide)
  · exact absurd h (by decide)

/-- After a lead and before a character that is not an alignment token when the lead is a
fill character alone, the parser enters the width part. -/
theorem afterBrace_lead (i : Nat) (b : Bool) (lead : List Char) (c : Char) (r : List Char)
    (hl : Lead b lead) (hc : b = false → ¬ (c = '<' ∨ c = '>')) :
    ∃ a f p, FormatSpec.afterBrace i (':' :: (lead ++ c :: r))
      = FormatSpec.widthField i a f p c r := by
  cases hl with
  | align a ha => exact ⟨a, ' ', i + 3, by simp [FormatSpec.afterBrace, ha]⟩
  | fillAlign F a hF ha =>
    exact ⟨a, F, i + 4, by simp [FormatSpec.afterBrace, hF, ha]⟩
  | fill F hF =>
    exact ⟨'<', F, i + 3, by simp [FormatSpec.afterBrace, hF, hc rfl]⟩

theorem afterBrace_lead_end (i : Nat) (b : Bool) (lead : List Char) (hl : Lead b lead) :
    (FormatSpec.afterBrace i (':' :: lead)).numErrors = 1 := by
  cases hl with
  | align a ha => simp [FormatSpec.afterBrace, ha, FormatSpec.leave]
  | fillAlign F a hF ha => simp [FormatSpec.afterBrace, hF, ha, FormatSpec.leave]
  | fill F hF => simp [FormatSpec.afterBrace, hF, FormatSpec.leave]

theorem afterBrace_malformed (i : Nat) (rest : List Char) (h : Malformed rest) :
    (FormatSpec.afterBrace i rest).numErrors = 1 := by
  cases h with
  | endAfterBrace => simp [FormatSpec.afterBrace, FormatSpec.leave]
  | badFirst c r h1 h2 => simp [FormatSpec.afterBrace, FormatSpec.leave, h1, h2]
  | endAfterColon => simp [FormatSpec.afterBrace, FormatSpec.leave]
  | endAfterLead b lead hl => exact afterBrace_lead_end i b lead hl
  | widthStart b lead c r hl hc hb =>
    obtain ⟨a, f, p, heq⟩ := afterBrace_lead i b lead c r hl hb
    rw [heq]
    exact widthField_not_digit i p a f c r hc
  | digitsThenEnd b lead W hl hne hd =>
    cases W with
    | nil => exact absurd rfl hne
    | cons w W =>
      have hw : isDigit w = true := hd w (List.mem_cons_self _ _)
      obtain ⟨a, f, p, heq⟩ := afterBrace_lead i b lead w W hl (fun _ => digit_not_align hw)
      rw [heq]
      exact widthField_digits_end i p a f w W hd
  | digitsThenOther b lead W c r hl hne hd hc hb =>
    cases W with
    | nil => exact absurd rfl hne
    | cons w W =>
      have hw : isDigit w = true := hd w (List.mem_cons_self _ _)
      obtain ⟨a, f, p, heq⟩ :=
        afterBrace_lead i b lead w (W ++ c :: r) hl (fun _ => digit_not_align hw)
      have e : lead ++ w :: W ++ c :: r = lead ++ w :: (W ++ c :: r) := by simp
      rw [e, heq]
      exact widthField_digits_other i p a f w W c r hd hc hb

/-- The constructor from a character array keeps the characters before the last one and
puts the terminator last; on the array of a string literal it gives `lit`. -/
theorem ofChars_eq (chars : List Char) (h : 0 < chars.length) :
    StaticString.ofChars chars = some ⟨chars.dropLast ++ [NUL]⟩ := by
  unfold StaticString.ofChars StaticString.append
  rw [splice_at_eq ⟨[NUL]⟩ chars _ 0 h (by simp [StaticString.len])]
  simp [StaticString.len]

theorem ofChars_lit (s : String) : StaticString.ofChars (s.toList ++ [NUL]) = some (lit s) := by
  rw [ofChars_eq _ (by simp)]
  simp [lit]

theorem getElem_at_length_append (P : List Char) (c : Char) (X : List Char) :
    (P ++ c :: X)[P.length]? = some c := by
  rw [List.getElem?_append_right (Nat.le_refl _)]
  simp

theorem Placeholder.text_head (ph : Placeholder) : ∃ t, ph.text = '{' :: t := by
  cases ph with
  | plain => exact ⟨_, rfl⟩
  | aligned fill align W => exact ⟨_, rfl⟩

theorem Placeholder.text_last (ph : Placeholder) : ∃ f, ph.text = f ++ ['}'] := by
  cases ph with
  | plain => exact ⟨['{'], rfl⟩
  | aligned fill align W => exact ⟨_, rfl⟩

/-- The result of `operator+` on a character array: the characters of the left operand
without its last one, those of the array without its last one, and the terminator. -/
theorem append_eq (A : StaticString) (B : List Char) (hA : 0 < A.len) (hB : 0 < B.length) :
    A.append B = some ⟨A.visible ++ B.dropLast ++ [NUL]⟩ := by
  unfold StaticString.append
  rw [splice_at_eq A B (A.len - 1) 0 hB (by omega)]
  have h1 : List.take (A.len - 1) A.chars_ = A.chars_.dropLast := by
    rw [List.dropLast_eq_take]; rfl
  have h2 : List.drop (A.len - 1 + 0) A.chars_.dropLast = [] := by
    apply List.drop_of_length_le
    simp [StaticString.len]
  rw [h1, h2]
  simp [StaticString.visible]

theorem add_eq (A B : StaticString) (hA : 0 < A.len) (hB : 0 < B.len) :
    A.add B = some ⟨A.visible ++ B.visible ++ [NUL]⟩ :=
  append_eq A B.chars_ hA hB

theorem visible_concat (body : List Char) (x : Char) :
    StaticString.visible ⟨body ++ [x]⟩ = body := by
  simp [StaticString.visible]

theorem len_concat (body : List Char) (x : Char) :
    StaticString.len ⟨body ++ [x]⟩ = body.length + 1 := by
  simp [StaticString.len]

theorem wellFormed_eq (A : StaticString) (h : A.WellFormed) : A = ⟨A.visible ++ [NUL]⟩ := by
  obtain ⟨body, hb⟩ := h
  obtain ⟨a⟩ := A
  simp only at hb
  subst hb
  simp [StaticString.visible]

theorem wellFormed_len (A : StaticString) (h : A.WellFormed) : 0 < A.len := by
  obtain ⟨body, hb⟩ := h
  simp [StaticString.len, hb]

/-- The left fold of `cat`, from any accumulated string. -/
theorem cat_fold (xs : List StaticString) :
    ∀ (acc : List Char), (∀ x ∈ xs, 0 < x.len) →
      xs.foldl (fun (acc : Option StaticString) arg => acc.bind fun s => s.add arg)
          (some (StaticString.mk (acc ++ [NUL])))
        = some (StaticString.mk (acc ++ concatVisible xs ++ [NUL])) := by
  induction xs with
  | nil => intro acc _; simp [concatVisible]
  | cons x xs ih =>
    intro acc hx
    have h1 : 0 < x.len := hx x (List.mem_cons_self _ _)
    have h2 := add_eq ⟨acc ++ [NUL]⟩ x (by simp [StaticString.len]) h1
    simp only [List.foldl_cons, Option.some_bind] at h2 ⊢
    rw [h2, visible_concat]
    rw [ih (acc ++ x.visible) (fun y hy => hx y (List.mem_cons_of_mem _ hy))]
    simp [concatVisible]

theorem cat_eq (xs : List StaticString) (hx : ∀ x ∈ xs, 0 < x.len) :
    cat xs = some ⟨concatVisible xs ++ [NUL]⟩ := by
  have := cat_fold xs [] hx
  simpa [cat] using this

/-- The left fold of `join`, from any accumulated string. -/
theorem join_fold (sep : StaticString) (hs : 0 < sep.len) (strs : List StaticString) :
    ∀ (acc : List Char) (i : StaticString), (∀ x ∈ strs, 0 < x.len) →
      strs.foldl
          (fun (acc : Option StaticString) s =>
            acc.bind fun a => (cat [sep, s]).bind fun b => a.add b)
          (some (StaticString.mk (acc ++ i.visible ++ [NUL])))
        = some (StaticString.mk (acc ++ joinText sep i strs ++ [NUL])) := by
  induction strs with
  | nil => intro acc i _; simp [joinText]
  | cons x xs ih =>
    intro acc i hx
    have h1 : 0 < x.len := hx x (List.mem_cons_self _ _)
    have hc : cat [sep, x] = some ⟨sep.visible ++ x.visible ++ [NUL]⟩ := by
      rw [cat_eq [sep, x] (by
        intro y hy
        rcases List.mem_cons.mp hy with rfl | hy
        · exact hs
        · rcases List.mem_cons.mp hy with rfl | hy
          · exact h1
          · cases hy)]
      simp [concatVisible]
    have h2 := add_eq ⟨acc ++ i.visible ++ [NUL]⟩ ⟨sep.visible ++ x.visible ++ [NUL]⟩
      (by simp [StaticString.len]) (by simp [StaticString.len])
    simp only [List.foldl_cons, Option.some_bind, hc, h2, visible_concat]
    have e : acc ++ i.visible ++ (sep.visible ++ x.visible)
        = (acc ++ i.visible ++ sep.visible) ++ x.visible := by simp
    rw [e, ih (acc ++ i.visible ++ sep.visible) x
      (fun y hy => hx y (List.mem_cons_of_mem _ hy))]
    simp [joinText]

theorem join_eq (sep i : StaticString) (strs : List StaticString) (hs : 0 < sep.len)
    (hi : 0 < i.len) (hx : ∀ x ∈ strs, 0 < x.len) :
    join sep i strs = some ⟨joinText sep i strs ++ [NUL]⟩ := by
  have hc : cat [i] = some ⟨[] ++ i.visible ++ [NUL]⟩ := by
    rw [cat_eq [i] (by intro y hy; rcases List.mem_cons.mp hy with rfl | hy
                       · exact hi
                       · cases hy)]
    simp [concatVisible]
  unfold join
  rw [hc, join_fold sep hs strs [] i hx]
  simp

/-! ## The terminator of produced strings -/

theorem copyLoop_length (src : List Char) (n : Nat) :
    ∀ (idx : Nat) (buf : List Char) (t : Nat) (b : List Char) (t1 : Nat),
      copyLoop src n idx buf t = some (b, t1) → b.length = buf.length := by
  induction n with
  | zero =>
    intro idx buf t b t1 h
    simp only [copyLoop, Option.some.injEq, Prod.mk.injEq] at h
    rw [← h.1]
  | succ n ih =>
    intro idx buf t b t1 h
    simp only [copyLoop] at h
    split at h
    · cases h
    · split at h
      · have := ih _ _ _ _ _ h
        simpa using this
      · cases h

theorem fillLoop_length (c : Char) (n : Nat) :
    ∀ (buf : List Char) (t : Nat) (b : List Char) (t1 : Nat),
      fillLoop c n buf t = some (b, t1) → b.length = buf.length := by
  induction n with
  | zero =>
    intro buf t b t1 h
    simp only [fillLoop, Option.some.injEq, Prod.mk.injEq] at h
    rw [← h.1]
  | succ n ih =>
    intro buf t b t1 h
    simp only [fillLoop] at h
    split at h
    · have := ih _ _ _ _ h
      simpa using this
    · cases h

theorem zeroed_length (M : Nat) (buf : List Char) (h : StaticString.zeroed M = some buf) :
    buf.length = M ∧ 0 < M := by
  unfold StaticString.zeroed at h
  split at h
  · injection h with h
    subst h
    exact ⟨by simp, by assumption⟩
  · cases h

/-- Writing the terminator into the last slot gives a well-formed string. -/
theorem setNUL_wellFormed (buf r : List Char) (i : Nat) (h : setNUL buf i = some r)
    (hi : i + 1 = buf.length) : ∃ body, r = body ++ [NUL] := by
  unfold setNUL at h
  split at h
  · injection h with h
    subst h
    obtain ⟨body, x, rfl⟩ : ∃ body x, buf = body ++ [x] := by
      refine ⟨buf.dropLast, buf.getLast (by intro h0; simp [h0] at hi), ?_⟩
      exact (List.dropLast_append_getLast _).symm
    have hb : i = body.length := by simp at hi; omega
    subst hb
    exact ⟨body, set_length_append body x NUL []⟩
  · cases h

/-- Every result of `splice_at` ends in the terminator. -/
theorem splice_at_wellFormed (A : StaticString) (B : List Char) (s d : Nat) (r : StaticString)
    (h : A.splice_at d s B = some r) : r.WellFormed := by
  simp only [StaticString.splice_at] at h
  split at h
  · cases h
  · rename_i hcap
    cases hz : StaticString.zeroed (A.len + B.length - d - 1) with
    | none => simp [hz] at h
    | some buf =>
      obtain ⟨hlen, hpos⟩ := zeroed_length _ _ hz
      simp only [hz] at h
      cases h1 : copyLoop A.chars_ s 0 buf 0 with
      | none => simp [h1] at h
      | some p1 =>
        obtain ⟨r1, t1⟩ := p1
        simp only [h1] at h
        cases h2 : copyLoop B (B.length - 1) 0 r1 t1 with
        | none => simp [h2] at h
        | some p2 =>
          obtain ⟨r2, t2⟩ := p2
          simp only [h2] at h
          cases h3 : copyLoop A.chars_ (A.len - (s + d)) (s + d) r2 t2 with
          | none => simp [h3] at h
          | some p3 =>
            obtain ⟨r3, t3⟩ := p3
            simp only [h3] at h
            cases h4 : setNUL r3 (A.len + B.length - d - 2) with
            | none => simp [h4] at h
            | some r4 =>
              simp only [h4, Option.some.injEq] at h
              subst h
              have l1 := copyLoop_length _ _ _ _ _ _ _ h1
              have l2 := copyLoop_length _ _ _ _ _ _ _ h2
              have l3 := copyLoop_length _ _ _ _ _ _ _ h3
              exact setNUL_wellFormed r3 r4 _ h4 (by omega)

/-- Every result of `applyFormat` ends in the terminator. -/
theorem applyFormat_wellFormed (sp : FormatSpec) (v r : StaticString)
    (h : applyFormat sp v = some r) : r.WellFormed := by
  simp only [applyFormat] at h
  cases hz : StaticString.zeroed (max sp.width v.len) with
  | none => simp [hz] at h
  | some buf =>
    obtain ⟨hlen, hpos⟩ := zeroed_length _ _ hz
    simp only [hz] at h
    by_cases hal : sp.alignSide = '>'
    · simp only [if_pos hal] at h
      cases h1 : fillLoop sp.fillChar (max sp.width v.len - v.len) buf 0 with
      | none => simp [h1] at h
      | some p1 =>
        obtain ⟨r1, t1⟩ := p1
        simp only [h1] at h
        cases h2 : copyLoop v.chars_ v.len 0 r1 t1 with
        | none => simp [h2] at h
        | some p2 =>
          obtain ⟨r2, t2⟩ := p2
          simp only [h2] at h
          cases h4 : setNUL r2 (max sp.width v.len - 1) with
          | none => simp [h4] at h
          | some r4 =>
            simp only [h4, Option.some.injEq] at h
            subst h
            have l1 := fillLoop_length _ _ _ _ _ _ h1
            have l2 := copyLoop_length _ _ _ _ _ _ _ h2
            exact setNUL_wellFormed r2 r4 _ h4 (by omega)
    · simp only [if_neg hal] at h
      cases h1 : copyLoop v.chars_ (v.len - 1) 0 buf 0 with
      | none => simp [h1] at h
      | some p1 =>
        obtain ⟨r1, t1⟩ := p1
        simp only [h1] at h
        cases h2 : fillLoop sp.fillChar (max sp.width v.len - 1 - (v.len - 1)) r1 t1 with
        | none => simp [h2] at h
        | some p2 =>
          obtain ⟨r2, t2⟩ := p2
          simp only [h2] at h
          cases h4 : setNUL r2 (max sp.width v.len - 1) with
          | none => simp [h4] at h
          | some r4 =>
            simp only [h4, Option.some.injEq] at h
            subst h
            have l1 := copyLoop_length _ _ _ _ _ _ _ h1
            have l2 := fillLoop_length _ _ _ _ _ _ h2
            exact setNUL_wellFormed r2 r4 _ h4 (by omega)

/-- A successful step of `format` goes on from a result of `splice_at`. -/
theorem format_step_wellFormed (fmt v : StaticString) (vs : List StaticString)
    (R : StaticString) (h : format fmt (v :: vs) = some R) :
    ∃ formatted : StaticString, formatted.WellFormed ∧ format formatted vs = some R := by
  unfold format at h
  cases hv : string_view fmt.chars_ with
  | none => simp [hv] at h
  | some fs =>
    simp only [hv] at h
    split at h
    · cases h
    · split at h
      · cases h
      · cases ha : applyFormat (FormatSpec.ctor fs) v with
        | none => simp [ha] at h
        | some rendered =>
          simp only [ha] at h
          cases hs : fmt.splice_at (FormatSpec.ctor fs).specLength
              (FormatSpec.ctor fs).specBegin rendered.chars_ with
          | none => simp [hs] at h
          | some formatted =>
            simp only [hs] at h
            exact ⟨formatted, splice_at_wellFormed _ _ _ _ _ hs, h⟩

/-- Every result of `format` with at least one value ends in the terminator. -/
theorem format_wellFormed (vs : List StaticString) :
    ∀ (fmt v R : StaticString), format fmt (v :: vs) = some R → R.WellFormed := by
  induction vs with
  | nil =>
    intro fmt v R h
    obtain ⟨formatted, hwf, hf⟩ := format_step_wellFormed fmt v [] R h
    simp only [format, Option.some.injEq] at hf
    subst hf
    exact hwf
  | cons w ws ih =>
    intro fmt v R h
    obtain ⟨formatted, _, hf⟩ := format_step_wellFormed fmt v (w :: ws) R h
    exact ih formatted w R hf

/-! ## The parser `FormatSpecU` -/

theorem fillScan_append (l : List Char) : (fillScan l).1 ++ (fillScan l).2 = l := by
  induction l with
  | nil => simp [fillScan]
  | cons c l ih =>
    by_cases h : c = '<' ∨ c = '>'
    · simp [fillScan, h]
    · simp [fillScan, h, ih]

theorem fillScan_fst (l : List Char) : ∀ c ∈ (fillScan l).1, ¬ (c = '<' ∨ c = '>') := by
  induction l with
  | nil => simp [fillScan]
  | cons c l ih =>
    by_cases h : c = '<' ∨ c = '>'
    · simp [fillScan, h]
    · simp only [fillScan, if_neg h]
      intro x hx
      rcases List.mem_cons.mp hx with rfl | hx
      · exact h
      · exact ih x hx

theorem fillScan_snd (l : List Char) (a : Char) (t : List Char)
    (h : (fillScan l).2 = a :: t) : a = '<' ∨ a = '>' := by
  induction l with
  | nil => simp [fillScan] at h
  | cons c l ih =>
    by_cases hc : c = '<' ∨ c = '>'
    · simp only [fillScan, if_pos hc, List.cons.injEq] at h
      rw [← h.1]; exact hc
    · simp only [fillScan, if_neg hc] at h
      exact ih h

theorem fillScan_none (l : List Char) (h : ∀ c ∈ l, ¬ (c = '<' ∨ c = '>')) :
    fillScan l = (l, []) := by
  induction l with
  | nil => rfl
  | cons c l ih =>
    have hc : ¬ (c = '<' ∨ c = '>') := h c (List.mem_cons_self _ _)
    have h2 := ih (fun x hx => h x (List.mem_cons_of_mem _ hx))
    simp [fillScan, hc, h2]

theorem scanU_brace (len : Nat) (P rest : List Char) (hP : '{' ∉ P) :
    ∀ p, FormatSpecU.scan len p (P ++ '{' :: rest)
      = FormatSpecU.afterBrace (p + P.length) rest := by
  induction P with
  | nil => intro p; simp [FormatSpecU.scan]
  | cons c P ih =>
    intro p
    have hc : c ≠ '{' := fun h => hP (by simp [h])
    have hP1 : '{' ∉ P := fun h => hP (List.mem_cons_of_mem _ h)
    have e : p + (c :: P).length = p + 1 + P.length := by simp; omega
    rw [e, ← ih hP1 (p + 1), List.cons_append]
    simp only [FormatSpecU.scan, if_pos hc]

theorem ctorU_brace (P rest : List Char) (hP : '{' ∉ P) :
    FormatSpecU.ctor (P ++ '{' :: rest) = FormatSpecU.afterBrace P.length rest := by
  simp [FormatSpecU.ctor, scanU_brace _ P rest hP]

/-- A successful width part of `FormatSpecU`: a non-empty run of digits closed by `}`. -/
theorem widthFieldU_ok (i k fb fe : Nat) (a c : Char) (r : List Char)
    (h : (FormatSpecU.widthField i fb fe a (i + k) c r).numErrors = 0) :
    ∃ W S, r = W ++ '}' :: S ∧ (∀ x ∈ c :: W, isDigit x = true) ∧
      FormatSpecU.widthField i fb fe a (i + k) c r
        = ⟨0, i, 1 + (k + (W.length + 1)), to_unsigned (c :: W), fb, fe, a⟩ := by
  unfold FormatSpecU.widthField at h ⊢
  by_cases hc : isDigit c = true
  · simp only [hc, not_true_eq_false, if_false] at h ⊢
    have happ := digitLoop_append (c :: r)
    have hdig := digitLoop_fst_digits (c :: r)
    have hhead : ∃ W, (digitLoop (c :: r)).1 = c :: W := by
      simp [digitLoop, hc]
    obtain ⟨W, hW⟩ := hhead
    rw [hW] at happ hdig h ⊢
    generalize (digitLoop (c :: r)).2 = tl at h happ ⊢
    cases tl with
    | nil => simp [FormatSpecU.leave] at h
    | cons c1 t =>
      by_cases h1 : c1 = '}'
      · subst h1
        simp only [List.cons_append, List.cons.injEq, true_and] at happ
        refine ⟨W, t, happ.symm, hdig, ?_⟩
        simp [FormatSpecU.leave]
        omega
      · simp [h1, FormatSpecU.leave] at h
  · simp [hc, FormatSpecU.leave] at h

/-- A successful parse of `FormatSpecU` after `{:`: a fill sequence without alignment
token, an alignment token, a non-empty run of digits and `}`. -/
theorem afterBraceU_ok (i : Nat) (rest : List Char)
    (h : (FormatSpecU.afterBrace i (':' :: rest)).numErrors = 0) :
    ∃ fill a W S, rest = fill ++ a :: (W ++ '}' :: S) ∧
      (∀ c ∈ fill, ¬ (c = '<' ∨ c = '>')) ∧ (a = '<' ∨ a = '>') ∧ W ≠ [] ∧
      (∀ c ∈ W, isDigit c = true) ∧
      FormatSpecU.afterBrace i (':' :: rest)
        = ⟨0, i, fill.length + W.length + 4, to_unsigned W, i + 2, i + 2 + fill.length, a⟩ := by
  cases rest with
  | nil => simp [FormatSpecU.afterBrace, FormatSpecU.leave] at h
  | cons c2 r2 =>
    by_cases hal : c2 = '<' ∨ c2 = '>'
    · cases r2 with
      | nil => simp [FormatSpecU.afterBrace, FormatSpecU.leave, hal] at h
      | cons c3 r3 =>
        have hw : FormatSpecU.afterBrace i (':' :: c2 :: c3 :: r3)
            = FormatSpecU.widthField i (i + 2) (i + 2) c2 (i + 3) c3 r3 := by
          simp [FormatSpecU.afterBrace, hal]
        rw [hw] at h ⊢
        obtain ⟨W, S, rfl, hd, heq⟩ := widthFieldU_ok i 3 (i + 2) (i + 2) c2 c3 r3 h
        refine ⟨[], c2, c3 :: W, S, by simp, by simp, hal, by simp, hd, ?_⟩
        rw [heq]
        simp
        omega
    · have hw : FormatSpecU.afterBrace i (':' :: c2 :: r2)
          = (match (fillScan r2).2 with
            | [] => FormatSpecU.leave 1 0 (i + 2) (i + 2 + 1 + (fillScan r2).1.length) '<' i
                (i + 3 + (fillScan r2).1.length)
            | a :: r3 =>
              match r3 with
              | [] => FormatSpecU.leave 1 0 (i + 2) (i + 2 + 1 + (fillScan r2).1.length) a i
                  (i + 3 + (fillScan r2).1.length + 1)
              | c3 :: r4 =>
                FormatSpecU.widthField i (i + 2) (i + 2 + 1 + (fillScan r2).1.length) a
                  (i + 3 + (fillScan r2).1.length + 1) c3 r4) := by
        simp [FormatSpecU.afterBrace, hal]
      rw [hw] at h ⊢
      have happ := fillScan_append r2
      have hfst := fillScan_fst r2
      have hsnd := fillScan_snd r2
      generalize (fillScan r2).1 = passed at h happ hfst ⊢
      generalize (fillScan r2).2 = tl at h happ hsnd ⊢
      cases tl with
      | nil => simp [FormatSpecU.leave] at h
      | cons a r3 =>
        cases r3 with
        | nil => simp [FormatSpecU.leave] at h
        | cons c3 r4 =>
          simp only at h ⊢
          have hk : i + 3 + passed.length + 1 = i + (passed.length + 4) := by omega
          rw [hk] at h ⊢
          obtain ⟨W, S, rfl, hd, heq⟩ :=
            widthFieldU_ok i (passed.length + 4) (i + 2) (i + 2 + 1 + passed.length) a c3 r4 h
          refine ⟨c2 :: passed, a, c3 :: W, S, by simp [← happ], ?_, hsnd a _ rfl, by simp,
            hd, ?_⟩
          · intro x hx
            rcases List.mem_cons.mp hx with rfl | hx
            · exact hal
            · exact hfst x hx
          · rw [heq]
            simp
            omega

/-- Without an alignment token after `{:` the parser `FormatSpecU` reports an error. -/
theorem afterBraceU_no_align (i : Nat) (rest : List Char)
    (h : ∀ c ∈ rest, ¬ (c = '<' ∨ c = '>')) :
    (FormatSpecU.afterBrace i (':' :: rest)).numErrors = 1 := by
  cases rest with
  | nil => simp [FormatSpecU.afterBrace, FormatSpecU.leave]
  | cons c2 r2 =>
    have hc : ¬ (c2 = '<' ∨ c2 = '>') := h c2 (List.mem_cons_self _ _)
    have h2 := fillScan_none r2 (fun x hx => h x (List.mem_cons_of_mem _ hx))
    simp [FormatSpecU.afterBrace, hc, h2, FormatSpecU.leave]

/-- The parser `FormatSpecU` reports an error on a fill directly followed by digits, where
`FormatSpec` reports none. -/
theorem ctorU_fill_without_alignment :
    (FormatSpecU.ctor "{:x5}".toList).numErrors = 1 ∧
      (FormatSpecU.ctor "{:12}".toList).numErrors = 1 ∧
      (FormatSpec.ctor "{:x5}".toList).numErrors = 0 ∧
      (FormatSpec.ctor "{:12}".toList).numErrors = 0 := by
  decide

/-! ## `format` against the reference `subst` -/

theorem widthField_shift (i j k : Nat) (a f c : Char) (r : List Char) :
    FormatSpec.widthField j a f (j + k) c r
      = (FormatSpec.widthField i a f (i + k) c r).withBegin j := by
  unfold FormatSpec.widthField
  by_cases hc : isDigit c = true
  · simp only [hc, not_true_eq_false, if_false]
    cases (digitLoop (c :: r)).2 with
    | nil => simp [FormatSpec.leave, FormatSpec.withBegin]; omega
    | cons c1 t =>
      by_cases h1 : c1 = '}'
      · simp [h1, FormatSpec.leave, FormatSpec.withBegin]; omega
      · simp [h1, FormatSpec.leave, FormatSpec.withBegin]; omega
  · simp [hc, FormatSpec.leave, FormatSpec.withBegin]

/-- The parse after `{` depends on the position of the `{` through `specBegin` only. -/
theorem afterBrace_shift (i j : Nat) (rest : List Char) :
    FormatSpec.afterBrace j rest = (FormatSpec.afterBrace i rest).withBegin j := by
  cases rest with
  | nil => simp [FormatSpec.afterBrace, FormatSpec.leave, FormatSpec.withBegin]
  | cons c1 r1 =>
    by_cases h1 : c1 = '}'
    · simp [FormatSpec.afterBrace, FormatSpec.leave, FormatSpec.withBegin, h1]
    by_cases h2 : c1 = ':'
    swap
    · simp [FormatSpec.afterBrace, FormatSpec.leave, FormatSpec.withBegin, h1, h2]
    subst h2
    cases r1 with
    | nil => simp [FormatSpec.afterBrace, FormatSpec.leave, FormatSpec.withBegin]
    | cons c2 r2 =>
      by_cases hal : c2 = '<' ∨ c2 = '>'
      · cases r2 with
        | nil => simp [FormatSpec.afterBrace, FormatSpec.leave, FormatSpec.withBegin, hal]
        | cons c3 r3 =>
          simp only [FormatSpec.afterBrace, hal, if_true]
          simpa using widthField_shift i j 3 c2 ' ' c3 r3
      · cases r2 with
        | nil => simp [FormatSpec.afterBrace, FormatSpec.leave, FormatSpec.withBegin, hal]
        | cons c3 r3 =>
          by_cases hal3 : c3 = '<' ∨ c3 = '>'
          · cases r3 with
            | nil =>
              simp [FormatSpec.afterBrace, FormatSpec.leave, FormatSpec.withBegin, hal, hal3]
            | cons c4 r4 =>
              simp only [FormatSpec.afterBrace, hal, hal3, if_true, if_false]
              simpa using widthField_shift i j 4 c3 c2 c4 r4
          · simp only [FormatSpec.afterBrace, hal, hal3, if_false]
            simpa using widthField_shift i j 3 '<' c2 c3 r3

/-- A `{`-free text before a view moves `specBegin` and changes nothing else. -/
theorem ctor_shift (Q X : List Char) (hQ : '{' ∉ Q) :
    FormatSpec.ctor (Q ++ X) = (FormatSpec.ctor X).withBegin (Q.length + (FormatSpec.ctor X).specBegin) := by
  rcases split_first_brace X with hno | ⟨P, rest, rfl, hP⟩
  · have hQX : '{' ∉ Q ++ X := by
      intro hm
      rcases List.mem_append.mp hm with h | h
      · exact hQ h
      · exact hno h
    rw [ctor_no_brace _ hQX, ctor_no_brace _ hno]
    simp [FormatSpec.withBegin]
  · have hQP : '{' ∉ Q ++ P := by
      intro hm
      rcases List.mem_append.mp hm with h | h
      · exact hQ h
      · exact hP h
    have e : Q ++ (P ++ '{' :: rest) = (Q ++ P) ++ '{' :: rest := by simp
    rw [e, ctor_brace _ rest hQP, ctor_brace P rest hP, afterBrace_shift P.length (Q ++ P).length]
    have hb : (FormatSpec.afterBrace P.length rest).specBegin = P.length := by
      have := afterBrace_shift 0 P.length rest
      rw [this]; rfl
    rw [hb]
    simp [FormatSpec.withBegin]

theorem takeWhile_append_NUL (S : List Char) :
    (S ++ [NUL]).takeWhile (fun c => decide (c ≠ NUL)) = viewOf S := by
  induction S with
  | nil => simp [viewOf, List.takeWhile]
  | cons c S ih =>
    by_cases hc : c = NUL
    · simp [viewOf, List.takeWhile, hc]
    · simp only [viewOf] at ih
      simp only [viewOf, List.cons_append, List.takeWhile, hc, ne_eq, not_false_eq_true,
        decide_True, List.cons.injEq, true_and]
      exact ih

theorem viewOf_split (S : List Char) : ∃ post, S = viewOf S ++ post ∧ NUL ∉ viewOf S := by
  induction S with
  | nil => exact ⟨[], by simp [viewOf], by simp [viewOf]⟩
  | cons c S ih =>
    by_cases hc : c = NUL
    · exact ⟨c :: S, by simp [viewOf, List.takeWhile, hc], by simp [viewOf, List.takeWhile, hc]⟩
    · obtain ⟨post, h1, h2⟩ := ih
      refine ⟨post, ?_, ?_⟩
      · simp only [viewOf] at h1
        simp only [viewOf, List.takeWhile, hc, ne_eq, not_false_eq_true, decide_True,
          List.cons_append, List.cons.injEq, true_and]
        exact h1
      · simp only [viewOf] at h2
        simp only [viewOf, List.takeWhile, hc, ne_eq, not_false_eq_true, decide_True,
          List.mem_cons, not_or]
        exact ⟨fun e => hc e.symm, h2⟩

/-- The view of a template that starts with a terminator-free text `Q`. -/
theorem string_view_append (Q S : List Char) (hQ : NUL ∉ Q) :
    string_view (Q ++ S ++ [NUL]) = some (Q ++ viewOf S) := by
  have h1 : NUL ∈ Q ++ S ++ [NUL] := by simp
  have h2 : List.takeWhile (fun c => decide (c ≠ NUL)) (Q ++ S ++ [NUL]) = Q ++ viewOf S := by
    rw [List.append_assoc, List.takeWhile_append_of_pos, takeWhile_append_NUL]
    intro a ha
    have : a ≠ NUL := fun e => hQ (e ▸ ha)
    simpa using this
  simp only [string_view, if_pos h1]
  rw [h2]

/-- One step of `format` on a template that starts with a text `Q` free of `{` and of the
terminator: the parser sees `Q` and then the view of the rest `S`. -/
theorem format_step_view (Q S : List Char) (v : StaticString) (vs : List StaticString)
    (hQ1 : '{' ∉ Q) (hQ2 : NUL ∉ Q) (hv : 0 < v.len) :
    format ⟨Q ++ S ++ [NUL]⟩ (v :: vs)
      = if (FormatSpec.ctor (viewOf S)).numErrors ≠ 0 ∨ (FormatSpec.ctor (viewOf S)).specLength = 0
        then none
        else format ⟨(Q ++ S.take (FormatSpec.ctor (viewOf S)).specBegin
              ++ render (FormatSpec.ctor (viewOf S)) v)
            ++ S.drop ((FormatSpec.ctor (viewOf S)).specBegin
                + (FormatSpec.ctor (viewOf S)).specLength)
            ++ [NUL]⟩ vs := by
  have hfs := string_view_append Q S hQ2
  have hsh := ctor_shift Q (viewOf S) hQ1
  by_cases hcond : (FormatSpec.ctor (viewOf S)).numErrors ≠ 0
      ∨ (FormatSpec.ctor (viewOf S)).specLength = 0
  · rw [if_pos hcond]
    unfold format
    simp only [hfs, hsh, FormatSpec.withBegin]
    rcases hcond with h | h
    · simp [h]
    · simp [h]
  · rw [if_neg hcond]
    have hn : (FormatSpec.ctor (viewOf S)).numErrors = 0 := by
      by_contra hne; exact hcond (Or.inl hne)
    have hpos : 0 < (FormatSpec.ctor (viewOf S)).specLength := by
      rcases Nat.eq_zero_or_pos (FormatSpec.ctor (viewOf S)).specLength with h0 | h0
      · exact absurd (Or.inr h0) hcond
      · exact h0
    have hrange := ctor_range (viewOf S) hn hpos
    obtain ⟨post, hS, _⟩ := viewOf_split S
    have hlenS : (viewOf S).length ≤ S.length := by
      have := congrArg List.length hS
      simp only [List.length_append] at this
      omega
    have hn2 : (FormatSpec.ctor (Q ++ viewOf S)).numErrors = 0 := by rw [hsh]; exact hn
    have hpos2 : 0 < (FormatSpec.ctor (Q ++ viewOf S)).specLength := by rw [hsh]; exact hpos
    rw [format_step_eq ⟨Q ++ S ++ [NUL]⟩ (Q ++ viewOf S) v vs hfs hn2 hpos2 hv]
    have hb : (FormatSpec.ctor (Q ++ viewOf S)).specBegin
        = Q.length + (FormatSpec.ctor (viewOf S)).specBegin := by rw [hsh]; rfl
    have hl : (FormatSpec.ctor (Q ++ viewOf S)).specLength
        = (FormatSpec.ctor (viewOf S)).specLength := by rw [hsh]; rfl
    have hr : render (FormatSpec.ctor (Q ++ viewOf S)) v
        = render (FormatSpec.ctor (viewOf S)) v := by rw [hsh]; rfl
    rw [hb, hl, hr]
    have htk : List.take (Q.length + (FormatSpec.ctor (viewOf S)).specBegin) (Q ++ S ++ [NUL])
        = Q ++ S.take (FormatSpec.ctor (viewOf S)).specBegin := by
      rw [List.append_assoc, List.take_append]
      rw [List.take_append_of_le_length (by omega)]
    have hdr : List.drop (Q.length + (FormatSpec.ctor (viewOf S)).specBegin
          + (FormatSpec.ctor (viewOf S)).specLength) (Q ++ S ++ [NUL]).dropLast
        = S.drop ((FormatSpec.ctor (viewOf S)).specBegin
            + (FormatSpec.ctor (viewOf S)).specLength) := by
      rw [List.dropLast_concat, Nat.add_assoc, List.drop_append]
    rw [htk, hdr]

/-- The text before the placeholder that a successful parse of the view found has neither
`{` nor the terminator. -/
theorem take_specBegin_clean (S : List Char)
    (hn : (FormatSpec.ctor (viewOf S)).numErrors = 0)
    (hpos : 0 < (FormatSpec.ctor (viewOf S)).specLength) :
    '{' ∉ S.take (FormatSpec.ctor (viewOf S)).specBegin ∧
      NUL ∉ S.take (FormatSpec.ctor (viewOf S)).specBegin := by
  obtain ⟨post, hS, hnul⟩ := viewOf_split S
  obtain ⟨P, body, S0, hfs, hP, hb, _, _⟩ := ctor_ok (viewOf S) hn hpos
  have htake : S.take (FormatSpec.ctor (viewOf S)).specBegin = P := by
    rw [hb]
    conv_lhs => rw [hS, hfs]
    rw [List.append_assoc]
    exact List.take_left' rfl
  rw [htake]
  refine ⟨hP, ?_⟩
  intro hm
  apply hnul
  rw [hfs]
  simp [hm]

/-- A text without terminator is seen whole by the parser of `format`. -/
theorem viewOf_eq_self (S : List Char) (h : NUL ∉ S) : viewOf S = S := by
  rw [← takeWhile_append_NUL S, List.takeWhile_append_of_pos]
  · simp [List.takeWhile]
  · intro a ha
    have : a ≠ NUL := fun e => h (e ▸ ha)
    simpa using this

/-- When the text still to be parsed has no terminator and no rendered text contains `{`
or the terminator, `format` is the reference `subst`: it fails exactly when `subst` fails
and returns the same text otherwise. -/
theorem format_eq_subst (vs : List StaticString) :
    ∀ (Q S : List Char), '{' ∉ Q → NUL ∉ Q → NUL ∉ S → (∀ v ∈ vs, 0 < v.len) →
      renderedFree '{' S vs = true → renderedFree NUL S vs = true →
      format ⟨Q ++ S ++ [NUL]⟩ vs
        = (subst S vs).map (fun out => StaticString.mk (Q ++ out ++ [NUL])) := by
  induction vs with
  | nil =>
    intro Q S _ _ _ _ _ _
    simp [format, subst]
  | cons v vs ih =>
    intro Q S hQ1 hQ2 hS hvs hc1 hc2
    have hv : 0 < v.len := hvs v (List.mem_cons_self _ _)
    have hview := viewOf_eq_self S hS
    have hstep := format_step_view Q S v vs hQ1 hQ2 hv
    rw [hview] at hstep
    rw [hstep]
    by_cases hcond : (FormatSpec.ctor S).numErrors ≠ 0 ∨ (FormatSpec.ctor S).specLength = 0
    · simp only [subst, if_pos hcond, Option.map_none']
    · have hn : (FormatSpec.ctor S).numErrors = 0 := by
        by_contra hne; exact hcond (Or.inl hne)
      have hpos : 0 < (FormatSpec.ctor S).specLength := by
        rcases Nat.eq_zero_or_pos (FormatSpec.ctor S).specLength with h0 | h0
        · exact absurd (Or.inr h0) hcond
        · exact h0
      have hap := applyFormat_render (FormatSpec.ctor S) v hv
      simp only [renderedFree, if_neg hcond, hap, Bool.and_eq_true, Bool.not_eq_true',
        decide_eq_false_iff_not, visible_concat] at hc1 hc2
      have hclean := take_specBegin_clean S (by rw [hview]; exact hn) (by rw [hview]; exact hpos)
      rw [hview] at hclean
      obtain ⟨hP1, hP2⟩ := hclean
      have hQ1n : '{' ∉ Q ++ S.take (FormatSpec.ctor S).specBegin
          ++ render (FormatSpec.ctor S) v := by
        intro hm
        rcases List.mem_append.mp hm with hm | hm
        · rcases List.mem_append.mp hm with hm | hm
          · exact hQ1 hm
          · exact hP1 hm
        · exact hc1.1 hm
      have hQ2n : NUL ∉ Q ++ S.take (FormatSpec.ctor S).specBegin
          ++ render (FormatSpec.ctor S) v := by
        intro hm
        rcases List.mem_append.mp hm with hm | hm
        · rcases List.mem_append.mp hm with hm | hm
          · exact hQ2 hm
          · exact hP2 hm
        · exact hc2.1 hm
      have hSn : NUL ∉ S.drop ((FormatSpec.ctor S).specBegin + (FormatSpec.ctor S).specLength) :=
        fun hm => hS (List.mem_of_mem_drop hm)
      rw [if_neg hcond, ih _ _ hQ1n hQ2n hSn (fun x hx => hvs x (List.mem_cons_of_mem _ hx))
        hc1.2 hc2.2]
      simp only [subst, if_neg hcond, hap, visible_concat]
      cases subst (S.drop ((FormatSpec.ctor S).specBegin
          + (FormatSpec.ctor S).specLength)) vs with
      | none => rfl
      | some out => simp

/-! ## Texts and values of the specification -/

theorem decimalValue_foldl (ds : List Char) :
    ∀ acc : Nat, ds.foldl (fun acc c => acc * 10 + (c.toNat - 48)) acc
      = acc * 10 ^ ds.length + digitSum ds := by
  induction ds with
  | nil => intro acc; simp [digitSum]
  | cons c cs ih =>
    intro acc
    simp only [List.foldl_cons, ih, digitSum, List.length_cons, pow_succ]
    ring

theorem decimalValue_eq_digitSum (ds : List Char) : decimalValue ds = digitSum ds := by
  unfold decimalValue
  rw [decimalValue_foldl ds 0]
  simp

theorem concatVisible_length (xs : List StaticString) :
    (concatVisible xs).length = (xs.map (fun x => x.visible.length)).sum := by
  induction xs with
  | nil => rfl
  | cons x xs ih => simp [concatVisible, ih]

theorem concatVisible_append (xs ys : List StaticString) :
    concatVisible (xs ++ ys) = concatVisible xs ++ concatVisible ys := by
  induction xs with
  | nil => rfl
  | cons x xs ih => simp [concatVisible, ih]

theorem joinText_length (sep i : StaticString) (rest : List StaticString) :
    (joinText sep i rest).length
      = i.visible.length + (rest.map (fun x => sep.visible.length + x.visible.length)).sum := by
  induction rest generalizing i with
  | nil => simp [joinText]
  | cons j rest ih => simp [joinText, ih j]; omega

theorem joinText_interleave (sep i : StaticString) (rest : List StaticString) :
    joinText sep i rest = concatVisible (i :: interleave sep rest) := by
  induction rest generalizing i with
  | nil => simp [joinText, concatVisible, interleave]
  | cons j rest ih =>
    have := ih j
    simp only [concatVisible] at this
    simp [joinText, concatVisible, interleave, this]

theorem interleave_pos (sep : StaticString) (hs : 0 < sep.len) (rest : List StaticString)
    (hx : ∀ x ∈ rest, 0 < x.len) : ∀ x ∈ interleave sep rest, 0 < x.len := by
  induction rest with
  | nil => intro x hx; cases hx
  | cons j rest ih =>
    intro x hm
    simp only [interleave, List.mem_cons] at hm
    rcases hm with rfl | rfl | hm
    · exact hs
    · exact hx _ (List.mem_cons_self _ _)
    · exact ih (fun y hy => hx y (List.mem_cons_of_mem _ hy)) x hm

theorem visible_length (A : StaticString) : A.visible.length = A.len - 1 := by
  simp [StaticString.visible, StaticString.len]

/-! ## The claims -/

/-- C1 (counterexample): with the template `{}{}` and the values `"{}"`, `"x"`, replacing
the first placeholder of the template by the first value and the second by the second gives
`{}x`, but `format` returns `x{}`: the second value went into the placeholder that the
first value brought in. -/
theorem C1_counterexample :
    format (lit "{}{}") [lit "{}", lit "x"] = some (lit "x{}") ∧
      substitute "{}{}".toList [lit "{}", lit "x"] = some "{}x".toList ∧
      (lit "x{}").visible ≠ "{}x".toList := by
  decide

/-- C1 (amended): for every well-formed template `T` and values `v1..vn` for which `format`
succeeds and such that no text rendered on the way contains `{`, the result is `T` with its
first `n` placeholders, in left-to-right order of `T` itself, each replaced by the rendering
of the value at the same position, all other text of `T` unchanged, and the terminator. -/
theorem C1_format_fills_left_to_right (T : StaticString) (body : List Char)
    (vs : List StaticString) (R : StaticString) (hT : T.chars_ = body ++ [NUL])
    (hvs : ∀ v ∈ vs, 0 < v.len) (hclean : cleanRun body vs = true)
    (h : format T vs = some R) :
    ∃ out, substitute body vs = some out ∧ R.chars_ = out ++ [NUL] := by
  obtain ⟨a⟩ := T
  simp only at hT
  subst hT
  have h1 : format ⟨[] ++ body ++ [NUL]⟩ vs = some R := by simpa using h
  obtain ⟨out, hsub, hR⟩ := format_some_substitute vs [] body R (by simp) hvs hclean h1
  exact ⟨out, hsub, by simpa using hR⟩

/-- C1 (amended), at the template `a{}b{:>3}c` and the values `"x"`, `"y"`. -/
theorem C1_format_fills_left_to_right_witness :
    ((lit "a{}b{:>3}c").chars_ = "a{}b{:>3}c".toList ++ [NUL] ∧
        (∀ v ∈ [lit "x", lit "y"], 0 < v.len) ∧
        cleanRun "a{}b{:>3}c".toList [lit "x", lit "y"] = true ∧
        format (lit "a{}b{:>3}c") [lit "x", lit "y"] = some (lit "axb yc")) ∧
      ∃ out, substitute "a{}b{:>3}c".toList [lit "x", lit "y"] = some out ∧
        (lit "axb yc").chars_ = out ++ [NUL] :=
  ⟨⟨by decide, by decide, by decide, by decide⟩,
    C1_format_fills_left_to_right (lit "a{}b{:>3}c") "a{}b{:>3}c".toList [lit "x", lit "y"]
      (lit "axb yc") (by decide) (by decide) (by decide) (by decide)⟩

/-- C2 (the code at the failing input): `format("{:>5}", "ab")` is `"  ab"`, two fill
characters and a visible length of 4, and `format("{:*<6}", "ab")` is `"ab***"`, three fill
characters and a visible length of 5: the width is compared with `value.len()`, which
counts the terminator, so a width `W` yields `W - 1` visible characters.  In general the
capacity of the result of `applyFormat`, terminator included, is
`max(formatSpec.width, value.len())`. -/
theorem C2_width_counts_terminator :
    format (lit "{:>5}") [lit "ab"] = some (lit "  ab") ∧
      format (lit "{:*<6}") [lit "ab"] = some (lit "ab***") ∧
      (lit "  ab").visible.length = 4 ∧ (lit "ab***").visible.length = 5 ∧
      ∀ (sp : FormatSpec) (v : StaticString), 0 < v.len →
        ∃ r, applyFormat sp v = some r ∧ r.len = max sp.width v.len := by
  refine ⟨by decide, by decide, by decide, by decide, ?_⟩
  intro sp v hv
  refine ⟨_, applyFormat_eq sp v hv, ?_⟩
  have hm := max_spec sp.width v.len
  have hd : v.chars_.dropLast.length = v.len - 1 := by simp [StaticString.len]
  by_cases hal : sp.alignSide = '>'
  · simp only [StaticString.len, if_pos hal, List.length_append, List.length_replicate,
      List.length_singleton, hd, padCount] at hv hm ⊢
    omega
  · simp only [StaticString.len, if_neg hal, List.length_append, List.length_replicate,
      List.length_singleton, hd, padCount] at hv hm ⊢
    omega

/-- C4: when the first `{` of a template starts a placeholder of one of the forms `{}`,
`{:<W}`, `{:>W}`, `{:F<W}`, `{:F>W}` (with `F` neither `<` nor `>` and `W` one or more
digits whose value fits in `size_t`), `FormatSpec` reports no error, `specBegin` is the
index of the `{`, `specLength` is the number of characters of the placeholder with both
braces, and `alignSide`, `fillChar` and `width` are the ones written (`<`, space and 0 by
default); the text after the closing `}` has no influence. -/
theorem C4_parse_grammar (P S : List Char) (ph : Placeholder) (hP : '{' ∉ P)
    (hv : ph.Valid) (hfit : ph.width < SIZE_MOD) :
    FormatSpec.ctor (P ++ ph.text ++ S)
        = ⟨0, ph.width, ph.alignSide, ph.fillChar, P.length, ph.text.length⟩ ∧
      (P ++ ph.text ++ S)[P.length]? = some '{' ∧
      (P ++ ph.text ++ S)[P.length + ph.text.length - 1]? = some '}' := by
  refine ⟨?_, ?_, ?_⟩
  · rw [ctor_placeholder P S ph hP hv]
    cases ph with
    | plain => rfl
    | aligned fill align W =>
      have hd : ∀ c ∈ W, isDigit c = true := hv.2.2.2
      have hw : to_unsigned W = decimalValue W := by
        rw [to_unsigned_digits W hd]
        exact Nat.mod_eq_of_lt hfit
      simp only [hw, Placeholder.width]
  · obtain ⟨t, ht⟩ := Placeholder.text_head ph
    rw [ht, List.append_assoc]
    exact getElem_at_length_append P '{' (t ++ S)
  · obtain ⟨f, hf⟩ := Placeholder.text_last ph
    have e1 : P ++ ph.text ++ S = (P ++ f) ++ '}' :: S := by rw [hf]; simp
    have e2 : P.length + ph.text.length - 1 = (P ++ f).length := by rw [hf]; simp
    rw [e1, e2]
    exact getElem_at_length_append (P ++ f) '}' S

/-- C4, at the template `ab{:*<12}cd{}`. -/
theorem C4_parse_grammar_witness :
    ('{' ∉ "ab".toList ∧ (Placeholder.aligned (some '*') '<' "12".toList).Valid ∧
        (Placeholder.aligned (some '*') '<' "12".toList).width < SIZE_MOD) ∧
      (FormatSpec.ctor ("ab".toList ++ (Placeholder.aligned (some '*') '<' "12".toList).text
          ++ "cd{}".toList)
        = ⟨0, (Placeholder.aligned (some '*') '<' "12".toList).width,
            (Placeholder.aligned (some '*') '<' "12".toList).alignSide,
            (Placeholder.aligned (some '*') '<' "12".toList).fillChar, "ab".toList.length,
            (Placeholder.aligned (some '*') '<' "12".toList).text.length⟩ ∧
      ("ab".toList ++ (Placeholder.aligned (some '*') '<' "12".toList).text
          ++ "cd{}".toList)["ab".toList.length]? = some '{' ∧
      ("ab".toList ++ (Placeholder.aligned (some '*') '<' "12".toList).text ++ "cd{}".toList)[
          "ab".toList.length + (Placeholder.aligned (some '*') '<' "12".toList).text.length - 1]?
        = some '}') :=
  ⟨⟨by decide, ⟨Or.inl rfl, by intro F hF; cases hF; exact ⟨by decide, by decide⟩,
      by decide, by decide⟩, by decide⟩,
    C4_parse_grammar "ab".toList "cd{}".toList (Placeholder.aligned (some '*') '<' "12".toList)
      (by decide) ⟨Or.inl rfl, by intro F hF; cases hF; exact ⟨by decide, by decide⟩,
        by decide, by decide⟩ (by decide)⟩

/-- C5 (the code at the failing input): `FormatSpec` reports no error on `{:x5}`, with fill
`x`, the default alignment and width 5, although `{:x5}` does not start with a placeholder
of the grammar, and it reports no error on `{:12}`, with fill `1` and width 2: a fill
character directly followed by digits is accepted without an alignment token. -/
theorem C5_fill_without_alignment_accepted :
    FormatSpec.ctor "{:x5}".toList = ⟨0, 5, '<', 'x', 0, 5⟩ ∧
      FormatSpec.ctor "{:12}".toList = ⟨0, 2, '<', '1', 0, 5⟩ ∧
      ¬ ∃ (ph : Placeholder) (S : List Char), ph.Valid ∧ "{:x5}".toList = ph.text ++ S := by
  refine ⟨by decide, by decide, ?_⟩
  rintro ⟨ph, S, hv, heq⟩
  cases ph with
  | plain =>
    simp [Placeholder.text] at heq
  | aligned fill align W =>
    obtain ⟨hal, hfill, _, _⟩ := hv
    cases fill with
    | none =>
      simp [Placeholder.text] at heq
      rcases hal with h | h
      · rw [h] at heq; exact absurd heq.1 (by decide)
      · rw [h] at heq; exact absurd heq.1 (by decide)
    | some F =>
      simp [Placeholder.text] at heq
      rcases hal with h | h
      · rw [h] at heq; exact absurd heq.2.1 (by decide)
      · rw [h] at heq; exact absurd heq.2.1 (by decide)

/-- C6: `FormatSpec` reports `numErrors > 0` whenever the text after the first `{` meets
one of the failure conditions: the template ends right after `{`; the next character is
neither `}` nor `:`; the template ends right after `:`, after the alignment token or after
the fill character; the character where the width must start is not a digit; the digit run
is followed by the end of the template or by a character other than `}`. -/
theorem C6_malformed_reports_error (P rest : List Char) (hP : '{' ∉ P)
    (h : Malformed rest) :
    0 < (FormatSpec.ctor (P ++ '{' :: rest)).numErrors := by
  rw [ctor_brace P rest hP, afterBrace_malformed P.length rest h]
  exact Nat.one_pos

/-- C6, at the template `ab{:*<7x`. -/
theorem C6_malformed_reports_error_witness :
    ('{' ∉ "ab".toList ∧ Malformed (':' :: (['*', '<'] ++ ['7'] ++ 'x' :: []))) ∧
      0 < (FormatSpec.ctor ("ab".toList ++ '{' :: (':' :: (['*', '<'] ++ ['7'] ++ 'x' :: [])))).numErrors :=
  ⟨⟨by decide, Malformed.digitsThenOther true ['*', '<'] ['7'] 'x' []
      (Lead.fillAlign '*' '<' (by decide) (Or.inl rfl)) (by decide) (by decide) (by decide)
      (by decide)⟩,
    C6_malformed_reports_error "ab".toList (':' :: (['*', '<'] ++ ['7'] ++ 'x' :: []))
      (by decide) (Malformed.digitsThenOther true ['*', '<'] ['7'] 'x' []
      (Lead.fillAlign '*' '<' (by decide) (Or.inl rfl)) (by decide) (by decide) (by decide)
      (by decide))⟩

/-- C7 (counterexample): the template `{}` has one placeholder and two values are
supplied, yet `format` succeeds and returns `x`: the first value `"{}"` is itself a
placeholder, which the second value fills. -/
theorem C7_counterexample :
    placeholderCount "{}".toList < [lit "{}", lit "x"].length ∧
      format (lit "{}") [lit "{}", lit "x"] = some (lit "x") := by
  decide

/-- C7 (amended): for every well-formed template `T` and values `v1..vn` such that no text
rendered on the way contains `{`, if `T` has fewer than `n` placeholders then `format`
fails.  In particular `format` fails whenever the template reached with a value still to
consume has no `{` in its view, which `FormatSpec` signals by `specLength == 0` with
`specBegin` the length of the view and `numErrors == 0`. -/
theorem C7_too_few_placeholders (T : StaticString) (body : List Char)
    (vs : List StaticString) (hT : T.chars_ = body ++ [NUL]) (hvs : ∀ v ∈ vs, 0 < v.len)
    (hclean : cleanRun body vs = true) (hfew : placeholderCount body < vs.length) :
    format T vs = none ∧
      ∀ (T1 : StaticString) (fs : List Char) (v : StaticString) (rest : List StaticString),
        string_view T1.chars_ = some fs → '{' ∉ fs →
          (FormatSpec.ctor fs).specLength = 0 ∧ (FormatSpec.ctor fs).specBegin = fs.length ∧
            (FormatSpec.ctor fs).numErrors = 0 ∧ format T1 (v :: rest) = none := by
  refine ⟨?_, ?_⟩
  · cases hres : format T vs with
    | none => rfl
    | some R =>
      exfalso
      obtain ⟨a⟩ := T
      simp only at hT
      subst hT
      have h1 : format ⟨[] ++ body ++ [NUL]⟩ vs = some R := by simpa using hres
      obtain ⟨out, hsub, _⟩ := format_some_substitute vs [] body R (by simp) hvs hclean h1
      obtain ⟨hlen, hcnt⟩ := substitute_some_count vs body out hsub
      have := hcnt body.length hlen
      unfold placeholderCount at hfew
      omega
  · intro T1 fs v rest hfs hno
    have hc := ctor_no_brace fs hno
    refine ⟨by rw [hc], by rw [hc], by rw [hc], ?_⟩
    unfold format
    simp only [hfs, hc]
    simp

/-- C7 (amended), at the template `a{}b` and the values `"x"`, `"y"`. -/
theorem C7_too_few_placeholders_witness :
    ((lit "a{}b").chars_ = "a{}b".toList ++ [NUL] ∧ (∀ v ∈ [lit "x", lit "y"], 0 < v.len) ∧
        cleanRun "a{}b".toList [lit "x", lit "y"] = true ∧
        placeholderCount "a{}b".toList < [lit "x", lit "y"].length) ∧
      (format (lit "a{}b") [lit "x", lit "y"] = none ∧
        ∀ (T1 : StaticString) (fs : List Char) (v : StaticString) (rest : List StaticString),
          string_view T1.chars_ = some fs → '{' ∉ fs →
            (FormatSpec.ctor fs).specLength = 0 ∧ (FormatSpec.ctor fs).specBegin = fs.length ∧
              (FormatSpec.ctor fs).numErrors = 0 ∧ format T1 (v :: rest) = none) :=
  ⟨⟨by decide, by decide, by decide, by decide⟩,
    C7_too_few_placeholders (lit "a{}b") "a{}b".toList [lit "x", lit "y"]
      (by decide) (by decide) (by decide) (by decide)⟩

/-- C8: for every parsed spec and every well-formed value whose length without the
terminator is at least `spec.width`, `applyFormat(spec, value)` returns the value unchanged,
whatever the alignment side and the fill character. -/
theorem C8_applyFormat_no_truncation (sp : FormatSpec) (v : StaticString)
    (hwf : v.WellFormed) (h : sp.width ≤ v.len - 1) :
    applyFormat sp v = some v := by
  obtain ⟨body, hbody⟩ := hwf
  have hlen : v.len = body.length + 1 := by simp [StaticString.len, hbody]
  have hv : 0 < v.len := by omega
  have hpad : padCount sp v = 0 := by
    unfold padCount
    have hm := max_spec sp.width v.len
    omega
  rw [applyFormat_eq sp v hv, hpad]
  obtain ⟨a⟩ := v
  simp only at hbody
  subst hbody
  by_cases hal : sp.alignSide = '>' <;> simp [hal]

/-- C8, at the spec of `{:*>3}` and the value `"abc"`. -/
theorem C8_applyFormat_no_truncation_witness :
    ((lit "abc").WellFormed ∧ (FormatSpec.ctor "{:*>3}".toList).width ≤ (lit "abc").len - 1) ∧
      applyFormat (FormatSpec.ctor "{:*>3}".toList) (lit "abc") = some (lit "abc") :=
  ⟨⟨⟨"abc".toList, rfl⟩, by decide⟩,
    C8_applyFormat_no_truncation (FormatSpec.ctor "{:*>3}".toList) (lit "abc")
      ⟨"abc".toList, rfl⟩ (by decide)⟩

/-- C9: for every parsed spec and every well-formed value, the visible content of
`applyFormat(spec, value)` is `k` copies of the fill character followed by the visible
characters of the value when `alignSide == '>'`, and the visible characters of the value
followed by `k` copies of the fill character otherwise, for some `k`. -/
theorem C9_applyFormat_padding_side (sp : FormatSpec) (v : StaticString)
    (hwf : v.WellFormed) :
    ∃ (k : Nat) (r : StaticString), applyFormat sp v = some r ∧
      r.visible = (if sp.alignSide = '>' then List.replicate k sp.fillChar ++ v.visible
                   else v.visible ++ List.replicate k sp.fillChar) := by
  obtain ⟨body, hbody⟩ := hwf
  have hv : 0 < v.len := by simp [StaticString.len, hbody]
  refine ⟨padCount sp v, _, applyFormat_render sp v hv, ?_⟩
  simp [StaticString.visible, render]

/-- C9, at the spec of `{:*>6}` and the value `"ab"`. -/
theorem C9_applyFormat_padding_side_witness :
    (lit "ab").WellFormed ∧
      ∃ (k : Nat) (r : StaticString),
        applyFormat (FormatSpec.ctor "{:*>6}".toList) (lit "ab") = some r ∧
        r.visible = (if (FormatSpec.ctor "{:*>6}".toList).alignSide = '>' then
            List.replicate k (FormatSpec.ctor "{:*>6}".toList).fillChar ++ (lit "ab").visible
          else (lit "ab").visible ++ List.replicate k (FormatSpec.ctor "{:*>6}".toList).fillChar) :=
  ⟨⟨"ab".toList, rfl⟩,
    C9_applyFormat_padding_side (FormatSpec.ctor "{:*>6}".toList) (lit "ab") ⟨"ab".toList, rfl⟩⟩

/-- C10: for a fixed string `A` of capacity `N`, an insertion text `B` of capacity `Len`, a
start index `s` and a delete count `d` with `s + d <= N - 1`, `A.splice_at<d>(s, B)` is, in
order, the characters `A[0..s)`, the `Len - 1` visible characters of `B`, the characters
`A[s+d .. N-1)` and the terminator in the final slot. -/
theorem C10_splice_at_content (A : StaticString) (B : List Char) (s d : Nat)
    (hA : 0 < A.len) (hB : 0 < B.length) (h : s + d ≤ A.len - 1) :
    A.splice_at d s B
      = some ⟨A.chars_.take s ++ B.take (B.length - 1)
          ++ (A.chars_.take (A.len - 1)).drop (s + d) ++ [NUL]⟩ := by
  rw [splice_at_eq A B s d hB (by omega)]
  simp [List.dropLast_eq_take, StaticString.len]

/-- C10, at `"hello"`, deleting `"el"` and inserting `"XYZ"`. -/
theorem C10_splice_at_content_witness :
    (0 < (lit "hello").len ∧ 0 < ("XYZ".toList ++ [NUL]).length ∧ 1 + 2 ≤ (lit "hello").len - 1) ∧
      (lit "hello").splice_at 2 1 ("XYZ".toList ++ [NUL])
        = some ⟨(lit "hello").chars_.take 1
            ++ ("XYZ".toList ++ [NUL]).take (("XYZ".toList ++ [NUL]).length - 1)
            ++ ((lit "hello").chars_.take ((lit "hello").len - 1)).drop (1 + 2) ++ [NUL]⟩ :=
  ⟨by decide, C10_splice_at_content (lit "hello") ("XYZ".toList ++ [NUL]) 1 2
    (by decide) (by decide) (by decide)⟩

/-- C11: for all well-formed fixed strings `S` and `T`, `cat(S, T)` equals `S + T` and
equals the splice of `S` with delete count 0 at index `length(S)`, the position of the
terminator, inserting `T`: the same capacity and the same characters. -/
theorem C11_cat_is_splice_at_end (S T : StaticString) (hS : S.WellFormed)
    (hT : T.WellFormed) :
    cat [S, T] = S.add T ∧
      cat [S, T] = S.splice_at 0 S.visible.length T.chars_ ∧
      cat [S, T] = some ⟨S.visible ++ T.visible ++ [NUL]⟩ := by
  have hSl := wellFormed_len S hS
  have hTl := wellFormed_len T hT
  have hc : cat [S, T] = some ⟨S.visible ++ T.visible ++ [NUL]⟩ := by
    rw [cat_eq [S, T] (by
      intro y hy
      rcases List.mem_cons.mp hy with rfl | hy
      · exact hSl
      · rcases List.mem_cons.mp hy with rfl | hy
        · exact hTl
        · cases hy)]
    simp [concatVisible]
  have ha := add_eq S T hSl hTl
  refine ⟨by rw [hc, ha], ?_, hc⟩
  rw [hc, ← ha, visible_length]
  rfl

/-- C11, at `"ab"` and `"cde"`. -/
theorem C11_cat_is_splice_at_end_witness :
    ((lit "ab").WellFormed ∧ (lit "cde").WellFormed) ∧
      (cat [lit "ab", lit "cde"] = (lit "ab").add (lit "cde") ∧
        cat [lit "ab", lit "cde"]
          = (lit "ab").splice_at 0 (lit "ab").visible.length (lit "cde").chars_ ∧
        cat [lit "ab", lit "cde"]
          = some ⟨(lit "ab").visible ++ (lit "cde").visible ++ [NUL]⟩) :=
  ⟨⟨⟨"ab".toList, rfl⟩, ⟨"cde".toList, rfl⟩⟩,
    C11_cat_is_splice_at_end (lit "ab") (lit "cde") ⟨"ab".toList, rfl⟩ ⟨"cde".toList, rfl⟩⟩

/-- C12: for every separator and every non-empty list of well-formed items `i1..in`, the
visible content of `join(sep, i1, ..., in)` is `i1 ++ sep ++ i2 ++ sep ++ ... ++ in`, with
the separator `n - 1` times, between adjacent items only, and `join(sep, i1) == i1`; in
particular `join(",", "a", "b", "c") == "a,b,c"` and `join(",", "a") == "a"`. -/
theorem C12_join_content (sep i : StaticString) (rest : List StaticString)
    (hs : 0 < sep.len) (hi : i.WellFormed) (hrest : ∀ x ∈ rest, x.WellFormed) :
    (∃ r, join sep i rest = some r ∧ r.visible = joinText sep i rest ∧
        r.visible.length = i.visible.length
          + (rest.map (fun x => sep.visible.length + x.visible.length)).sum) ∧
      join sep i [] = some i ∧
      join (lit ",") (lit "a") [lit "b", lit "c"] = some (lit "a,b,c") ∧
      join (lit ",") (lit "a") [] = some (lit "a") := by
  have hil := wellFormed_len i hi
  refine ⟨?_, ?_, by decide, by decide⟩
  · refine ⟨_, join_eq sep i rest hs hil (fun x hx => wellFormed_len x (hrest x hx)), ?_, ?_⟩
    · exact visible_concat _ _
    · rw [visible_concat, joinText_length]
  · rw [join_eq sep i [] hs hil (by intro x hx; cases hx)]
    simp only [joinText]
    exact congrArg some (wellFormed_eq i hi).symm

/-- C12, at the separator `", "` and the items `"ab"`, `"c"`, `"def"`. -/
theorem C12_join_content_witness :
    (0 < (lit ", ").len ∧ (lit "ab").WellFormed ∧
        ∀ x ∈ [lit "c", lit "def"], x.WellFormed) ∧
      ((∃ r, join (lit ", ") (lit "ab") [lit "c", lit "def"] = some r ∧
          r.visible = joinText (lit ", ") (lit "ab") [lit "c", lit "def"] ∧
          r.visible.length = (lit "ab").visible.length
            + ([lit "c", lit "def"].map
                (fun x => (lit ", ").visible.length + x.visible.length)).sum) ∧
        join (lit ", ") (lit "ab") [] = some (lit "ab") ∧
        join (lit ",") (lit "a") [lit "b", lit "c"] = some (lit "a,b,c") ∧
        join (lit ",") (lit "a") [] = some (lit "a")) :=
  ⟨⟨by decide, ⟨"ab".toList, rfl⟩, by
      intro x hx
      simp only [List.mem_cons, List.mem_singleton, List.not_mem_nil, or_false] at hx
      rcases hx with rfl | rfl
      · exact ⟨"c".toList, rfl⟩
      · exact ⟨"def".toList, rfl⟩⟩,
    C12_join_content (lit ", ") (lit "ab") [lit "c", lit "def"] (by decide)
      ⟨"ab".toList, rfl⟩ (by
        intro x hx
        simp only [List.mem_cons, List.mem_singleton, List.not_mem_nil, or_false] at hx
        rcases hx with rfl | rfl
        · exact ⟨"c".toList, rfl⟩
        · exact ⟨"def".toList, rfl⟩)⟩

/-- C13: `cat()` is the fixed string of capacity 1 that holds only the terminator, and
`cat(x1, ..., xn)` is the left fold of concatenation from it: its content is the visible
contents of `x1, ..., xn` in order and one terminator, and its capacity is 1 plus the sum
of the visible lengths. -/
theorem C13_cat_fold (xs : List StaticString) (hx : ∀ x ∈ xs, 0 < x.len) :
    cat [] = some ⟨[NUL]⟩ ∧
      cat xs = xs.foldl (fun acc x => acc.bind fun s => s.add x) (cat []) ∧
      cat xs = some ⟨concatVisible xs ++ [NUL]⟩ ∧
      ∃ r, cat xs = some r ∧ r.len = 1 + (xs.map (fun x => x.visible.length)).sum := by
  refine ⟨rfl, rfl, cat_eq xs hx, _, cat_eq xs hx, ?_⟩
  rw [len_concat, concatVisible_length]
  omega

/-- C13, at `"ab"`, `""`, `"cde"`. -/
theorem C13_cat_fold_witness :
    (∀ x ∈ [lit "ab", lit "", lit "cde"], 0 < x.len) ∧
      (cat [] = some ⟨[NUL]⟩ ∧
        cat [lit "ab", lit "", lit "cde"]
          = [lit "ab", lit "", lit "cde"].foldl (fun acc x => acc.bind fun s => s.add x)
              (cat []) ∧
        cat [lit "ab", lit "", lit "cde"]
          = some ⟨concatVisible [lit "ab", lit "", lit "cde"] ++ [NUL]⟩ ∧
        ∃ r, cat [lit "ab", lit "", lit "cde"] = some r ∧
          r.len = 1 + ([lit "ab", lit "", lit "cde"].map (fun x => x.visible.length)).sum) :=
  ⟨by decide, C13_cat_fold [lit "ab", lit "", lit "cde"] (by decide)⟩

/-- C14: for every template `L`, `format(L)` with zero values returns `L` unchanged, the
same capacity and the same characters, without parsing it, whatever `L` contains. -/
theorem C14_format_no_values (L : StaticString) : format L [] = some L := rfl

/-- C15 (counterexample): splicing `"XYZ"`, of length 3 without its terminator, into
`"hello"`, of capacity 6, with delete count 2 gives `"hXYZlo"`, of capacity 7, where
`N + L - d - 1` is 6. -/
theorem C15_counterexample :
    (lit "hello").splice_at 2 1 (lit "XYZ").chars_ = some (lit "hXYZlo") ∧
      (lit "hXYZlo").len = 7 ∧
      (lit "hello").len + (lit "XYZ").visible.length - 2 - 1 = 6 := by
  decide

/-- C15 (amended): for every base string of capacity `N`, insertion text of length `L`
without its terminator (an array of `Len = L + 1` characters) and delete count `d` within
the base string, the fixed string returned by `splice_at` has capacity `N + L - d`, that is
`N + Len - d - 1`. -/
theorem C15_splice_at_capacity (A : StaticString) (B : List Char) (s d : Nat)
    (hB : 0 < B.length) (h : s + d < A.len) :
    ∃ r, A.splice_at d s B = some r ∧ r.len = A.len + (B.length - 1) - d ∧
      r.len = A.len + B.length - d - 1 := by
  refine ⟨_, splice_at_eq A B s d hB h, ?_, ?_⟩ <;>
  · simp only [StaticString.len, List.length_append, List.length_take, List.length_dropLast,
      List.length_drop, List.length_singleton] at h ⊢
    omega

/-- C15 (amended), at `"hello"`, deleting `"el"` and inserting `"XYZ"`. -/
theorem C15_splice_at_capacity_witness :
    (0 < (lit "XYZ").chars_.length ∧ 1 + 2 < (lit "hello").len) ∧
      ∃ r, (lit "hello").splice_at 2 1 (lit "XYZ").chars_ = some r ∧
        r.len = (lit "hello").len + ((lit "XYZ").chars_.length - 1) - 2 ∧
        r.len = (lit "hello").len + (lit "XYZ").chars_.length - 2 - 1 :=
  ⟨by decide, C15_splice_at_capacity (lit "hello") (lit "XYZ").chars_ 1 2
    (by decide) (by decide)⟩

/-- C16: every fixed string produced by the construction from a character array, by
`splice_at`, by `operator+`, by `cat`, by `join`, by `applyFormat` or by a successful
`format` holds the terminator in its last position, also when an input array does not end
in a terminator; each of these operations but `format` returns a string on all arguments in
range. -/
theorem C16_terminator_invariant :
    (∀ chars : List Char, 0 < chars.length →
        ∃ r, StaticString.ofChars chars = some r ∧ r.WellFormed) ∧
      (∀ (A : StaticString) (B : List Char) (s d : Nat) (r : StaticString),
        A.splice_at d s B = some r → r.WellFormed) ∧
      (∀ (A : StaticString) (B : List Char) (s d : Nat), 0 < B.length → s + d < A.len →
        ∃ r, A.splice_at d s B = some r ∧ r.WellFormed) ∧
      (∀ (A : StaticString) (B : List Char), 0 < A.len → 0 < B.length →
        ∃ r, A.append B = some r ∧ r.WellFormed) ∧
      (∀ A B : StaticString, 0 < A.len → 0 < B.len → ∃ r, A.add B = some r ∧ r.WellFormed) ∧
      (∀ xs : List StaticString, (∀ x ∈ xs, 0 < x.len) →
        ∃ r, cat xs = some r ∧ r.WellFormed) ∧
      (∀ (sep i : StaticString) (rest : List StaticString), 0 < sep.len → 0 < i.len →
        (∀ x ∈ rest, 0 < x.len) → ∃ r, join sep i rest = some r ∧ r.WellFormed) ∧
      (∀ (sp : FormatSpec) (v : StaticString), 0 < v.len →
        ∃ r, applyFormat sp v = some r ∧ r.WellFormed) ∧
      (∀ (fmt : StaticString) (vs : List StaticString) (R : StaticString),
        format fmt vs = some R → (vs ≠ [] ∨ fmt.WellFormed) → R.WellFormed) := by
  refine ⟨?_, ?_, ?_, ?_, ?_, ?_, ?_, ?_, ?_⟩
  · intro chars h
    exact ⟨_, ofChars_eq chars h, _, rfl⟩
  · intro A B s d r h
    exact splice_at_wellFormed A B s d r h
  · intro A B s d hB h
    exact ⟨_, splice_at_eq A B s d hB h, _, rfl⟩
  · intro A B hA hB
    exact ⟨_, append_eq A B hA hB, _, rfl⟩
  · intro A B hA hB
    exact ⟨_, add_eq A B hA hB, _, rfl⟩
  · intro xs hx
    exact ⟨_, cat_eq xs hx, _, rfl⟩
  · intro sep i rest hs hi hx
    exact ⟨_, join_eq sep i rest hs hi hx, _, rfl⟩
  · intro sp v hv
    exact ⟨_, applyFormat_render sp v hv, _, rfl⟩
  · intro fmt vs R h hor
    cases vs with
    | nil =>
      simp only [format, Option.some.injEq] at h
      subst h
      rcases hor with h1 | h1
      · exact absurd rfl h1
      · exact h1
    | cons v vs => exact format_wellFormed vs fmt v R h

/-- C17: for every string `d1 ... dk` of decimal digits, `to_unsigned` returns the number
it denotes, the sum of `d_i * 10 ^ (k - i)`, reduced modulo `2 ^ 64`; the empty string
gives 0 and a digit string whose value is below `2 ^ 64` gives exactly that value. -/
theorem C17_to_unsigned_value (ds : List Char) (hd : ∀ c ∈ ds, isDigit c = true) :
    to_unsigned ds = digitSum ds % 2 ^ 64 ∧ to_unsigned [] = 0 ∧
      (digitSum ds < 2 ^ 64 → to_unsigned ds = digitSum ds) := by
  have h := to_unsigned_digits ds hd
  rw [decimalValue_eq_digitSum] at h
  refine ⟨h, by decide, ?_⟩
  intro hlt
  rw [h]
  exact Nat.mod_eq_of_lt hlt

/-- C17, at the digit string `0042`. -/
theorem C17_to_unsigned_value_witness :
    (∀ c ∈ "0042".toList, isDigit c = true) ∧
      (to_unsigned "0042".toList = digitSum "0042".toList % 2 ^ 64 ∧ to_unsigned [] = 0 ∧
        (digitSum "0042".toList < 2 ^ 64 → to_unsigned "0042".toList = digitSum "0042".toList)) :=
  ⟨by decide, C17_to_unsigned_value "0042".toList (by decide)⟩

/-- C18 (counterexample): on `{:<18446744073709551616}` the parser `FormatSpecU` reports no
error and `fillCount == 0`, while the digits between the alignment token and the closing
`}` have the decimal value `2 ^ 64`. -/
theorem C18_counterexample :
    (FormatSpecU.ctor "{:<18446744073709551616}".toList).numErrors = 0 ∧
      (FormatSpecU.ctor "{:<18446744073709551616}".toList).fillCount = 0 ∧
      decimalValue "18446744073709551616".toList = 2 ^ 64 := by
  decide

/-- C18 (amended): when `FormatSpecU` reports no error on a template whose first `{` is
followed by `:`, the text after the `:` is a fill sequence without `<` and `>`, an alignment
token, one or more digits and `}`; `fillSeqBegin == specBegin + 2`, `fillSeqEnd` is the
index of that alignment token, which is `alignSide`, `fillCount` is the decimal value of the
digits reduced modulo `2 ^ 64` (the value itself when it is below `2 ^ 64`), and
`template[specBegin + specLength - 1]` is the closing `}`.  When no `<` or `>` stands after
the `:`, `FormatSpecU` reports an error. -/
theorem C18_parse_multi_fill (P rest : List Char) (hP : '{' ∉ P)
    (h0 : (FormatSpecU.ctor (P ++ '{' :: ':' :: rest)).numErrors = 0) :
    (∃ fill a W S, rest = fill ++ a :: (W ++ '}' :: S) ∧
        (∀ c ∈ fill, ¬ (c = '<' ∨ c = '>')) ∧ (a = '<' ∨ a = '>') ∧ W ≠ [] ∧
        (∀ c ∈ W, isDigit c = true) ∧
        FormatSpecU.ctor (P ++ '{' :: ':' :: rest)
          = ⟨0, P.length, fill.length + W.length + 4, decimalValue W % 2 ^ 64,
              P.length + 2, P.length + 2 + fill.length, a⟩ ∧
        (decimalValue W < 2 ^ 64 →
          (FormatSpecU.ctor (P ++ '{' :: ':' :: rest)).fillCount = decimalValue W) ∧
        (P ++ '{' :: ':' :: rest)[P.length + 2 + fill.length]? = some a ∧
        (P ++ '{' :: ':' :: rest)[P.length + (fill.length + W.length + 4) - 1]? = some '}') ∧
      ∀ (P1 rest1 : List Char), '{' ∉ P1 → (∀ c ∈ rest1, ¬ (c = '<' ∨ c = '>')) →
        0 < (FormatSpecU.ctor (P1 ++ '{' :: ':' :: rest1)).numErrors := by
  refine ⟨?_, ?_⟩
  · rw [ctorU_brace P _ hP] at h0 ⊢
    obtain ⟨fill, a, W, S, rfl, hfill, ha, hW, hd, heq⟩ := afterBraceU_ok P.length rest h0
    have hu : to_unsigned W = decimalValue W % 2 ^ 64 := to_unsigned_digits W hd
    refine ⟨fill, a, W, S, rfl, hfill, ha, hW, hd, by rw [heq, hu], ?_, ?_, ?_⟩
    · intro hlt
      rw [heq]
      simp only [hu]
      exact Nat.mod_eq_of_lt hlt
    · have e : P ++ '{' :: ':' :: (fill ++ a :: (W ++ '}' :: S))
          = (P ++ '{' :: ':' :: fill) ++ a :: (W ++ '}' :: S) := by simp
      have l : P.length + 2 + fill.length = (P ++ '{' :: ':' :: fill).length := by
        simp; omega
      rw [e, l]
      exact getElem_at_length_append _ a _
    · have e : P ++ '{' :: ':' :: (fill ++ a :: (W ++ '}' :: S))
          = (P ++ '{' :: ':' :: (fill ++ a :: W)) ++ '}' :: S := by simp
      have l : P.length + (fill.length + W.length + 4) - 1
          = (P ++ '{' :: ':' :: (fill ++ a :: W)).length := by
        simp; omega
      rw [e, l]
      exact getElem_at_length_append _ '}' S
  · intro P1 rest1 hP1 hno
    rw [ctorU_brace P1 _ hP1, afterBraceU_no_align P1.length rest1 hno]
    exact Nat.one_pos

/-- C18 (amended), at the template `ab{:xy<12}z`. -/
theorem C18_parse_multi_fill_witness :
    ('{' ∉ "ab".toList ∧
        (FormatSpecU.ctor ("ab".toList ++ '{' :: ':' :: "xy<12\x7dz".toList)).numErrors = 0) ∧
      ((∃ fill a W S, "xy<12\x7dz".toList = fill ++ a :: (W ++ '}' :: S) ∧
          (∀ c ∈ fill, ¬ (c = '<' ∨ c = '>')) ∧ (a = '<' ∨ a = '>') ∧ W ≠ [] ∧
          (∀ c ∈ W, isDigit c = true) ∧
          FormatSpecU.ctor ("ab".toList ++ '{' :: ':' :: "xy<12\x7dz".toList)
            = ⟨0, "ab".toList.length, fill.length + W.length + 4, decimalValue W % 2 ^ 64,
                "ab".toList.length + 2, "ab".toList.length + 2 + fill.length, a⟩ ∧
          (decimalValue W < 2 ^ 64 →
            (FormatSpecU.ctor ("ab".toList ++ '{' :: ':' :: "xy<12\x7dz".toList)).fillCount
              = decimalValue W) ∧
          ("ab".toList ++ '{' :: ':' :: "xy<12\x7dz".toList)[
              "ab".toList.length + 2 + fill.length]? = some a ∧
          ("ab".toList ++ '{' :: ':' :: "xy<12\x7dz".toList)[
              "ab".toList.length + (fill.length + W.length + 4) - 1]? = some '}') ∧
        ∀ (P1 rest1 : List Char), '{' ∉ P1 → (∀ c ∈ rest1, ¬ (c = '<' ∨ c = '>')) →
          0 < (FormatSpecU.ctor (P1 ++ '{' :: ':' :: rest1)).numErrors) :=
  ⟨⟨by decide, by decide⟩,
    C18_parse_multi_fill "ab".toList "xy<12\x7dz".toList (by decide) (by decide)⟩

/-- C19 (counterexample): with the template `{}{}` and the values `"x\0y"`, `"b"`, no
rendered text contains `{` and the reference `subst` returns `x\0yb`, but `format` fails:
after the first step the template is `x\0y{}`, of which the parser sees `x` only.  With the
template `a\0{}` and the value `"x"`, no rendered text contains `{` or the terminator and
`subst` returns `a\0x`, but `format` fails: of that template the parser sees `a` only. -/
theorem C19_counterexample :
    (renderedFree '{' "{}{}".toList [⟨['x', NUL, 'y', NUL]⟩, lit "b"] = true ∧
        subst "{}{}".toList [⟨['x', NUL, 'y', NUL]⟩, lit "b"] = some ['x', NUL, 'y', 'b'] ∧
        format (lit "{}{}") [⟨['x', NUL, 'y', NUL]⟩, lit "b"] = none) ∧
      (renderedFree '{' ['a', NUL, '{', '}'] [lit "x"] = true ∧
        renderedFree NUL ['a', NUL, '{', '}'] [lit "x"] = true ∧
        subst ['a', NUL, '{', '}'] [lit "x"] = some ['a', NUL, 'x'] ∧
        format ⟨['a', NUL, '{', '}', NUL]⟩ [lit "x"] = none) := by
  decide

/-- C19 (amended): for every well-formed template `T` whose text holds no terminator
`'\0'` before the final one and values `v1..vn` such that no rendered text
`applyFormat(spec_k, v_k)` contains the character `{` or the terminator `'\0'`,
`format(T, v1..vn)` fails exactly when the one-pass reference `subst`, which parses the
text of `T` itself, fails and otherwise returns the same string: parsing the whole spliced
template again at each step is then equivalent to scanning `T` once from left to right. -/
theorem C19_format_refines_subst (T : StaticString) (body : List Char)
    (vs : List StaticString) (hT : T.chars_ = body ++ [NUL]) (hbody : NUL ∉ body)
    (hvs : ∀ v ∈ vs, 0 < v.len)
    (hbrace : renderedFree '{' body vs = true) (hnul : renderedFree NUL body vs = true) :
    format T vs = (subst body vs).map (fun out => StaticString.mk (out ++ [NUL])) ∧
      (format T vs = none ↔ subst body vs = none) := by
  obtain ⟨a⟩ := T
  simp only at hT
  subst hT
  have h := format_eq_subst vs [] body (by simp) (by simp) hbody hvs hbrace hnul
  simp only [List.nil_append] at h
  refine ⟨h, ?_⟩
  rw [h]
  cases subst body vs <;> simp

/-- C19 (amended), at the template `a{}b{:>3}c{}` and the values `"x"`, `"y"`. -/
theorem C19_format_refines_subst_witness :
    ((lit "a{}b{:>3}c{}").chars_ = "a{}b{:>3}c{}".toList ++ [NUL] ∧
        NUL ∉ "a{}b{:>3}c{}".toList ∧
        (∀ v ∈ [lit "x", lit "y"], 0 < v.len) ∧
        renderedFree '{' "a{}b{:>3}c{}".toList [lit "x", lit "y"] = true ∧
        renderedFree NUL "a{}b{:>3}c{}".toList [lit "x", lit "y"] = true) ∧
      (format (lit "a{}b{:>3}c{}") [lit "x", lit "y"]
          = (subst "a{}b{:>3}c{}".toList [lit "x", lit "y"]).map
              (fun out => StaticString.mk (out ++ [NUL])) ∧
        (format (lit "a{}b{:>3}c{}") [lit "x", lit "y"] = none
          ↔ subst "a{}b{:>3}c{}".toList [lit "x", lit "y"] = none)) :=
  ⟨⟨by decide, by decide, by decide, by decide, by decide⟩,
    C19_format_refines_subst (lit "a{}b{:>3}c{}") "a{}b{:>3}c{}".toList [lit "x", lit "y"]
      (by decide) (by decide) (by decide) (by decide) (by decide)⟩

/-- C20: concatenation of fixed strings is associative, `(A + B) + C == A + (B + C)` with
equal capacity and equal characters, and the empty string is its identity on well-formed
strings, `cat() + A == A` and `A + cat() == A`; hence the left folds of `cat` and `join`
give the same string under any grouping: `cat` of two lists one after the other is the
concatenation of their `cat`s, and `join` is the `cat` of the items with the separator
before each item but the first. -/
theorem C20_concat_monoid (A B C : StaticString) (hA : 0 < A.len) (hB : 0 < B.len)
    (hC : 0 < C.len) :
    (A.add B).bind (fun x => x.add C) = (B.add C).bind (fun y => A.add y) ∧
      (A.add B).bind (fun x => x.add C) = some ⟨A.visible ++ B.visible ++ C.visible ++ [NUL]⟩ ∧
      (A.WellFormed →
        (cat []).bind (fun e => e.add A) = some A ∧ (cat []).bind (fun e => A.add e) = some A) ∧
      (∀ xs ys : List StaticString, (∀ x ∈ xs, 0 < x.len) → (∀ y ∈ ys, 0 < y.len) →
        cat (xs ++ ys) = (cat xs).bind fun a => (cat ys).bind fun b => a.add b) ∧
      (∀ (sep i : StaticString) (rest : List StaticString), 0 < sep.len → 0 < i.len →
        (∀ x ∈ rest, 0 < x.len) → join sep i rest = cat (i :: interleave sep rest)) := by
  have hAB := add_eq A B hA hB
  have hBC := add_eq B C hB hC
  have h1 : (A.add B).bind (fun x => x.add C)
      = some ⟨A.visible ++ B.visible ++ C.visible ++ [NUL]⟩ := by
    rw [hAB, Option.some_bind, add_eq _ C (by simp [StaticString.len]) hC, visible_concat]
  have h2 : (B.add C).bind (fun y => A.add y)
      = some ⟨A.visible ++ B.visible ++ C.visible ++ [NUL]⟩ := by
    rw [hBC, Option.some_bind, add_eq A _ hA (by simp [StaticString.len]), visible_concat]
    simp
  refine ⟨by rw [h1, h2], h1, ?_, ?_, ?_⟩
  · intro hwf
    have hc : cat [] = some ⟨[NUL]⟩ := rfl
    have hv : StaticString.visible ⟨[NUL]⟩ = [] := rfl
    rw [hc, Option.some_bind, Option.some_bind,
      add_eq ⟨[NUL]⟩ A (by simp [StaticString.len]) hA,
      add_eq A ⟨[NUL]⟩ hA (by simp [StaticString.len]), hv]
    simp only [List.nil_append, List.append_nil]
    exact ⟨congrArg some (wellFormed_eq A hwf).symm, congrArg some (wellFormed_eq A hwf).symm⟩
  · intro xs ys hx hy
    have hxy : ∀ z ∈ xs ++ ys, 0 < z.len := by
      intro z hz
      rcases List.mem_append.mp hz with h | h
      · exact hx z h
      · exact hy z h
    rw [cat_eq _ hxy, cat_eq xs hx, cat_eq ys hy, Option.some_bind, Option.some_bind,
      add_eq _ _ (by simp [StaticString.len]) (by simp [StaticString.len]), visible_concat,
      visible_concat, concatVisible_append]
  · intro sep i rest hs hi hx
    have hall : ∀ z ∈ i :: interleave sep rest, 0 < z.len := by
      intro z hz
      rcases List.mem_cons.mp hz with rfl | hz
      · exact hi
      · exact interleave_pos sep hs rest hx z hz
    rw [join_eq sep i rest hs hi hx, cat_eq _ hall, joinText_interleave]

/-- C20, at `"ab"`, `"c"`, `"de"`. -/
theorem C20_concat_monoid_witness :
    (0 < (lit "ab").len ∧ 0 < (lit "c").len ∧ 0 < (lit "de").len) ∧
      (((lit "ab").add (lit "c")).bind (fun x => x.add (lit "de"))
          = ((lit "c").add (lit "de")).bind (fun y => (lit "ab").add y) ∧
        ((lit "ab").add (lit "c")).bind (fun x => x.add (lit "de"))
          = some ⟨(lit "ab").visible ++ (lit "c").visible ++ (lit "de").visible ++ [NUL]⟩ ∧
        ((lit "ab").WellFormed →
          (cat []).bind (fun e => e.add (lit "ab")) = some (lit "ab") ∧
            (cat []).bind (fun e => (lit "ab").add e) = some (lit "ab")) ∧
        (∀ xs ys : List StaticString, (∀ x ∈ xs, 0 < x.len) → (∀ y ∈ ys, 0 < y.len) →
          cat (xs ++ ys) = (cat xs).bind fun a => (cat ys).bind fun b => a.add b) ∧
        (∀ (sep i : StaticString) (rest : List StaticString), 0 < sep.len → 0 < i.len →
          (∀ x ∈ rest, 0 < x.len) → join sep i rest = cat (i :: interleave sep rest))) :=
  ⟨by decide, C20_concat_monoid (lit "ab") (lit "c") (lit "de") (by decide) (by decide)
    (by decide)⟩

end ufo
